import Mathlib

/-!
Shallow embedding of the JiraMCP core components: the InputValidator /
sanitizer module (validators.ts), the logging sanitizer (logger.ts), the
MCP tool handlers (index.ts) and the rate limiter (whose implementation
file is absent from the sources; it is modelled from the specification).

JavaScript runtime values that can appear in JSON-like data are embedded
as the plain inductive type JsVal.  Arrays and objects are represented as
cons-chains (arrNil/arrCons, objNil/objCons) rather than nested lists so
that all recursions are structural and all functions evaluate inside the
kernel.  The bridge functions jarr/jobj build a JsVal from a Lean list.

Strings are processed as lists of characters; each JavaScript regex
replace used by the source is embedded as an explicit scanner that
mirrors the left-to-right global-replace semantics of the original
pattern, including greediness and the backtracking the concrete pattern
can actually perform.
-/

namespace JiraMCP

/-! ### Character classes used by the embedded regexes -/

/-- Whitespace as matched by the regex class backslash-s (ASCII part). -/
def isWS (c : Char) : Bool :=
  c == ' ' || c == '\t' || c == '\n' || c == '\r' || c == '\x0b' || c == '\x0c'

/-- Word character for the regex word-boundary assertion: [A-Za-z0-9_]. -/
def isWordChar (c : Char) : Bool := c.isAlpha || c.isDigit || c == '_'

/-- Character class of the email local part: [a-zA-Z0-9._%+-]. -/
def isLocalChar (c : Char) : Bool :=
  c.isAlpha || c.isDigit || c == '.' || c == '_' || c == '%' || c == '+' || c == '-'

/-- Character class of the email domain part: [a-zA-Z0-9.-]. -/
def isDomChar (c : Char) : Bool := c.isAlpha || c.isDigit || c == '.' || c == '-'

/-- Case-insensitive check that cs starts with pattern pat
(pattern supplied in lower case). -/
def ciStarts : List Char → List Char → Bool
  | [], _ => true
  | _ :: _, [] => false
  | p :: ps, c :: cs => (c.toLower == p) && ciStarts ps cs

/-- Case-sensitive check that cs starts with pat. -/
def litStarts : List Char → List Char → Bool
  | [], _ => true
  | _ :: _, [] => false
  | p :: ps, c :: cs => (c == p) && litStarts ps cs

/-! ### Script-tag stripping

The source removes every match of the case-insensitive pattern
"script-open, word boundary, then non-angle runs and angle runs whose
angle does not open the closing tag, then the closing script tag" from a
string (validators.ts, sanitizeJiraResponse).  For this concrete pattern
the backtracking search is deterministic: a match starting at a
script-open tag extends to the first case-insensitive occurrence of the
closing tag. -/

def scriptOpenL : List Char := ['<', 's', 'c', 'r', 'i', 'p', 't']

def scriptCloseL : List Char := ['<', '/', 's', 'c', 'r', 'i', 'p', 't', '>']

/-- Index of the first case-insensitive occurrence of the closing script
tag in cs. -/
def findScriptClose : List Char → Option Nat
  | [] => none
  | c :: cs =>
    if ciStarts scriptCloseL (c :: cs) then some 0
    else (findScriptClose cs).map (· + 1)

/-- Length of the script-block match starting at the head of cs, if any:
the open tag (7 chars) must be followed by a non-word character (word
boundary), and a closing tag (9 chars) must occur later; the match runs
to the end of the first closing tag. -/
def scriptHeadMatch (cs : List Char) : Option Nat :=
  if ciStarts scriptOpenL cs then
    match cs.drop 7 with
    | [] => none
    | d :: rest =>
      if isWordChar d then none
      else match findScriptClose (d :: rest) with
        | some j => some (16 + j)
        | none => none
  else none

/-- One global-replace scan removing script blocks; fuel bounds the
recursion (one unit per step, cs.length + 1 always suffices). -/
def stripAux : Nat → List Char → List Char
  | 0, cs => cs
  | _ + 1, [] => []
  | fuel + 1, c :: cs =>
    match scriptHeadMatch (c :: cs) with
    | some n => stripAux fuel ((c :: cs).drop n)
    | none => c :: stripAux fuel cs

def stripScripts (cs : List Char) : List Char := stripAux (cs.length + 1) cs

def stripScriptTags (s : String) : String := String.mk (stripScripts s.data)

/-! ### JSON-like values -/

/-- JavaScript JSON-like runtime values.  Arrays are cons-chains built
from arrNil/arrCons and objects are cons-chains of key-value pairs built
from objNil/objCons. -/
inductive JsVal where
  | str (s : String)
  | num (n : Int)
  | jbool (b : Bool)
  | null
  | undef
  | arrNil
  | arrCons (head tail : JsVal)
  | objNil
  | objCons (name : String) (value tail : JsVal)
deriving DecidableEq, Repr

/-- Build an embedded array from a Lean list. -/
def jarr : List JsVal → JsVal
  | [] => .arrNil
  | v :: vs => .arrCons v (jarr vs)

/-- Build an embedded object from a Lean list of fields. -/
def jobj : List (String × JsVal) → JsVal
  | [] => .objNil
  | (k, v) :: kvs => .objCons k v (jobj kvs)

/-- Whether a value is an array (Array.isArray). -/
def isArr : JsVal → Bool
  | .arrNil => true
  | .arrCons _ _ => true
  | _ => false

/-- sanitizeJiraResponse (validators.ts): strings have script blocks
removed, arrays are mapped elementwise, objects are rebuilt with every
value sanitized, all other values are returned unchanged. -/
def sanitizeJiraResponse : JsVal → JsVal
  | .str s => .str (stripScriptTags s)
  | .arrCons h t => .arrCons (sanitizeJiraResponse h) (sanitizeJiraResponse t)
  | .objCons k v t => .objCons k (sanitizeJiraResponse v) (sanitizeJiraResponse t)
  | v => v

/-! ### The four redaction regexes of sanitizeErrorMessage and the four
of the logger, embedded as head-matchers returning the length of the
(leftmost-greedy) match starting at the head of the input, if any. -/

/-- Head match of the URL pattern: literal http, optional s, colon and
two slashes, then one or more non-whitespace characters (greedy).  The
optional s is tried first, as the regex engine does. -/
def urlHead (cs : List Char) : Option Nat :=
  if litStarts ['h', 't', 't', 'p'] cs then
    let rest := cs.drop 4
    if litStarts ['s', ':', '/', '/'] rest then
      let tok := (rest.drop 4).takeWhile (fun c => !isWS c)
      if tok.length == 0 then none else some (8 + tok.length)
    else if litStarts [':', '/', '/'] rest then
      let tok := (rest.drop 3).takeWhile (fun c => !isWS c)
      if tok.length == 0 then none else some (7 + tok.length)
    else none
  else none

/-- Valid split point of the email domain run: index k holds a dot, at
least one domain character precedes it, and at least two letters follow
it.  The greedy domain part backtracks to the largest such k. -/
def validEmailDot (run : List Char) (k : Nat) : Bool :=
  decide (1 ≤ k) && (run[k]? == some '.')
    && decide (2 ≤ ((run.drop (k + 1)).takeWhile (fun c => c.isAlpha)).length)

/-- Largest valid split point of the email domain run. -/
def emailSplit (run : List Char) : Option Nat :=
  ((List.range run.length).filter (validEmailDot run)).getLast?

/-- Head match of the email pattern: a nonempty local-part run, an at
sign, then a greedy domain run that backtracks to the last dot followed
by a greedy top-level-domain run of at least two letters. -/
def emailHead (cs : List Char) : Option Nat :=
  let lp := cs.takeWhile isLocalChar
  if lp.length == 0 then none
  else
    match cs.drop lp.length with
    | '@' :: rest =>
      let dom := rest.takeWhile isDomChar
      match emailSplit dom with
      | some k =>
        some (lp.length + 1 + k + 1
          + ((dom.drop (k + 1)).takeWhile (fun c => c.isAlpha)).length)
      | none => none
    | _ => none

/-- Whitespace run and token run after the Bearer keyword: one or more
whitespace characters, then one or more non-whitespace characters, both
greedy.  Returns (whitespace length, token length). -/
def bearerTail (rest : List Char) : Option (Nat × Nat) :=
  let w := rest.takeWhile isWS
  if w.length == 0 then none
  else
    let tok := (rest.drop w.length).takeWhile (fun c => !isWS c)
    if tok.length == 0 then none else some (w.length, tok.length)

/-- Head match of the case-sensitive Bearer pattern used by
sanitizeErrorMessage (the regex carries no ignore-case flag). -/
def bearerHead (cs : List Char) : Option Nat :=
  if litStarts ['B', 'e', 'a', 'r', 'e', 'r'] cs then
    (bearerTail (cs.drop 6)).map (fun p => 6 + p.1 + p.2)
  else none

/-- Head match of the case-insensitive bearer pattern used by the
logger. -/
def bearerHeadCI (cs : List Char) : Option Nat :=
  if ciStarts ['b', 'e', 'a', 'r', 'e', 'r'] cs then
    (bearerTail (cs.drop 6)).map (fun p => 6 + p.1 + p.2)
  else none

/-- Separator class of the api-token and password patterns: a colon or
whitespace. -/
def isSepChar (c : Char) : Bool := c == ':' || isWS c

/-- Largest index of a colon in a separator run, skipping index 0 (the
separator part must stay nonempty when the engine backtracks). -/
def lastColonIdx (a : List Char) : Option Nat :=
  ((List.range a.length).filter (fun i => decide (1 ≤ i) && (a[i]? == some ':'))).getLast?

/-- Tail of the api-token and password patterns: one or more separator
characters (greedy), then one or more non-whitespace characters
(greedy).  When the greedy separator run reaches the end of the input,
the engine backtracks to the last colon inside the run, which then
starts the value.  Returns the offset of the value and its length. -/
def kvTail (rest : List Char) : Option (Nat × Nat) :=
  let a := rest.takeWhile isSepChar
  if a.length == 0 then none
  else
    let v := (rest.drop a.length).takeWhile (fun c => !isWS c)
    if v.length != 0 then some (a.length, v.length)
    else
      match lastColonIdx a with
      | some i => some (i, ((rest.drop i).takeWhile (fun c => !isWS c)).length)
      | none => none

/-- The api-token pattern prefix: api, an optional underscore or hyphen,
token, case-insensitively.  Returns the remainder after the prefix and
the prefix length. -/
def apiPre (cs : List Char) : Option (List Char × Nat) :=
  if ciStarts ['a', 'p', 'i'] cs then
    let sr : Nat × List Char :=
      match cs.drop 3 with
      | c :: tl =>
        if (c == '_' || c == '-') && ciStarts ['t', 'o', 'k', 'e', 'n'] tl then (1, tl)
        else (0, cs.drop 3)
      | [] => (0, cs.drop 3)
    if ciStarts ['t', 'o', 'k', 'e', 'n'] sr.2 then some (sr.2.drop 5, 8 + sr.1)
    else none
  else none

/-- Head match of the case-insensitive api-token pattern: the prefix,
then separator and value. -/
def apiHead (cs : List Char) : Option Nat :=
  match apiPre cs with
  | some (rest, pl) => (kvTail rest).map (fun p => pl + p.1 + p.2)
  | none => none

/-- The value slice of an api-token match at the head, when one
exists. -/
def apiValAt (cs : List Char) : Option (List Char) :=
  match apiPre cs with
  | some (rest, _) => (kvTail rest).map (fun p => (rest.drop p.1).take p.2)
  | none => none

/-- Head match of the case-insensitive password pattern used by the
logger: password, then separator and value. -/
def passwordHead (cs : List Char) : Option Nat :=
  if ciStarts ['p', 'a', 's', 's', 'w', 'o', 'r', 'd'] cs then
    (kvTail (cs.drop 8)).map (fun p => 8 + p.1 + p.2)
  else none

/-- The token slice of a (case-sensitive) Bearer match at the head, when
one exists. -/
def bearerTokAt (cs : List Char) : Option (List Char) :=
  if litStarts ['B', 'e', 'a', 'r', 'e', 'r'] cs then
    (bearerTail (cs.drop 6)).map (fun p => ((cs.drop 6).drop p.1).take p.2)
  else none

/-! ### Global replace -/

/-- One global-replace pass: scan left to right; where the head-matcher
fires, emit the replacement literal and resume after the match;
otherwise copy one character.  Fuel bounds the recursion (cs.length + 1
always suffices because every step consumes at least one character). -/
def replAux (m : List Char → Option Nat) (lit : List Char) :
    Nat → List Char → List Char
  | 0, cs => cs
  | _ + 1, [] => []
  | fuel + 1, c :: cs =>
    match m (c :: cs) with
    | some n => lit ++ replAux m lit fuel ((c :: cs).drop n)
    | none => c :: replAux m lit fuel cs

def replRun (m : List Char → Option Nat) (lit : List Char) (cs : List Char) :
    List Char :=
  replAux m lit (cs.length + 1) cs

def urlLit : List Char := "[URL_REDACTED]".data

def emailLit : List Char := "[EMAIL_REDACTED]".data

def bearerLit : List Char := "Bearer [TOKEN_REDACTED]".data

def apiLit : List Char := "api_token: [REDACTED]".data

def passwordLit : List Char := "password: [REDACTED]".data

def bearerLitLogger : List Char := "Bearer [REDACTED]".data

/-- The four chained replaces of sanitizeErrorMessage (validators.ts):
URL, then email, then case-sensitive Bearer, then case-insensitive
api-token. -/
def redactMessage (s : String) : String :=
  String.mk (replRun apiHead apiLit
    (replRun bearerHead bearerLit
      (replRun emailHead emailLit
        (replRun urlHead urlLit s.data))))

/-- The four chained replaces applied by the logger to every string
(logger.ts, sanitizeForLogging): case-insensitive api-token, then
case-insensitive password, then case-insensitive bearer (with the
shorter replacement Bearer [REDACTED]), then email.  There is no URL
rule. -/
def loggerSanitizeString (s : String) : String :=
  String.mk (replRun emailHead emailLit
    (replRun bearerHeadCI bearerLitLogger
      (replRun passwordHead passwordLit
        (replRun apiHead apiLit s.data))))

/-! ### sanitizeErrorMessage -/

/-- Property lookup error.message over the embedding: objects expose
their message field; every other value (including a plain string) has
no message property. -/
def getMessage : JsVal → Option JsVal
  | .objCons k v t => if k == "message" then some v else getMessage t
  | _ => none

/-- JavaScript truthiness of an embedded value. -/
def truthy : JsVal → Bool
  | .str s => !s.isEmpty
  | .num n => !(n == 0)
  | .jbool b => b
  | .null => false
  | .undef => false
  | _ => true

/-- sanitizeErrorMessage (validators.ts): take error-question-mark
.message, fall back to the literal string An error occurred when that is
absent or falsy, then run the four replaces.  When the extracted message
is a truthy non-string, the replace call of the original throws a
TypeError; that outcome is the error case of the Except. -/
def sanitizeErrorMessage (e : JsVal) : Except String String :=
  let m : JsVal :=
    match getMessage e with
    | some v => if truthy v then v else .str "An error occurred"
    | none => .str "An error occurred"
  match m with
  | .str s => .ok (redactMessage s)
  | _ => .error "TypeError: message.replace is not a function"

/-- The call sanitizeErrorMessage(message) made by the tool handlers of
index.ts, where message is already a string value. -/
def sanitizeErrorOnString (msg : String) : String :=
  match sanitizeErrorMessage (.str msg) with
  | .ok s => s
  | .error s => s

/-! ### Validators (validators.ts) -/

/-- JavaScript ToString conversion of an embedded value, as performed by
String(id) and by parseInt argument coercion.  Arrays stringify to their
elements joined with commas, with null and undefined elements rendered
empty; objects stringify to the literal object tag. -/
def toJsString : JsVal → String
  | .str s => s
  | .num n => toString n
  | .jbool b => if b then "true" else "false"
  | .null => "null"
  | .undef => "undefined"
  | .arrNil => ""
  | .arrCons h t =>
    (match h with
     | .null => ""
     | .undef => ""
     | v => toJsString v)
    ++ (match t with
        | .arrNil => ""
        | t2 => "," ++ toJsString t2)
  | .objNil => "[object Object]"
  | .objCons _ _ _ => "[object Object]"

/-- String.prototype.trim (ASCII whitespace). -/
def trimJS (s : String) : String :=
  String.mk (((s.data.dropWhile isWS).reverse.dropWhile isWS).reverse)

/-- Board-id character class [a-zA-Z0-9_-]. -/
def isBoardIdChar (c : Char) : Bool :=
  c.isAlpha || c.isDigit || c == '_' || c == '-'

/-- The anchored board-id test: one or more characters of the class. -/
def boardIdOk (s : String) : Bool :=
  !s.isEmpty && s.data.all isBoardIdChar

/-- Number of elements of an embedded array. -/
def arrLen : JsVal → Nat
  | .arrCons _ t => arrLen t + 1
  | _ => 0

/-- The map step of validateBoardIds: coerce each element to a string,
trim it, and fail at the first trimmed element that does not pass the
board-id test, naming that element. -/
def mapBoardIds : JsVal → Except String (List String)
  | .arrCons h t =>
    let s := trimJS (toJsString h)
    if boardIdOk s then (mapBoardIds t).map (fun rest => s :: rest)
    else .error ("Invalid board ID format: " ++ s)
  | _ => .ok []

/-- validateBoardIds (validators.ts). -/
def validateBoardIds (v : JsVal) : Except String (List String) :=
  if !isArr v then .error "boardIds must be an array"
  else if arrLen v == 0 then .error "boardIds cannot be empty"
  else if 10 < arrLen v then .error "Cannot query more than 10 boards at once"
  else mapBoardIds v

/-- Numeric value of a run of decimal digits. -/
def digitsVal (ds : List Char) : Nat :=
  ds.foldl (fun acc c => acc * 10 + (c.toNat - 48)) 0

/-- parseInt with radix 10: coerce to string (done by the caller), skip
leading whitespace, read an optional sign and then a maximal run of
decimal digits; no digits means NaN (none). -/
def parseInt10 (s : String) : Option Int :=
  let cs := s.data.dropWhile isWS
  let sc : Int × List Char :=
    match cs with
    | '-' :: tl => (-1, tl)
    | '+' :: tl => (1, tl)
    | _ => (1, cs)
  let ds := sc.2.takeWhile Char.isDigit
  if ds.length == 0 then none
  else some (sc.1 * (digitsVal ds : Int))

/-- validateDays (validators.ts). -/
def validateDays (v : JsVal) : Except String Int :=
  match parseInt10 (toJsString v) with
  | none => .error "days must be a number"
  | some n =>
    if n < 1 || 90 < n then .error "days must be between 1 and 90"
    else .ok n

/-- validateFormat (validators.ts). -/
def validateFormat (v : JsVal) : Except String String :=
  match v with
  | .str s =>
    if s == "blog" || s == "announcement" || s == "both" then .ok s
    else .error "Invalid format. Must be one of: blog, announcement, both"
  | _ => .error "Invalid format. Must be one of: blog, announcement, both"

/-! ### Logger sanitization (logger.ts) -/

/-- Whether pat occurs case-insensitively anywhere in a character
list. -/
def hasCISub (pat : List Char) : List Char → Bool
  | [] => ciStarts pat []
  | c :: cs => ciStarts pat (c :: cs) || hasCISub pat cs

/-- The sensitive-key test of the logger: the key contains token,
password, secret, key or auth, case-insensitively. -/
def keySensitive (k : String) : Bool :=
  hasCISub ['t', 'o', 'k', 'e', 'n'] k.data
    || hasCISub ['p', 'a', 's', 's', 'w', 'o', 'r', 'd'] k.data
    || hasCISub ['s', 'e', 'c', 'r', 'e', 't'] k.data
    || hasCISub ['k', 'e', 'y'] k.data
    || hasCISub ['a', 'u', 't', 'h'] k.data

/-- sanitizeForLogging (logger.ts): strings pass through the logger's
four replaces; arrays are sanitized elementwise; object fields whose key
matches the sensitive-key test are replaced by the redaction marker, the
rest are sanitized recursively; all other values pass unchanged. -/
def sanitizeForLogging : JsVal → JsVal
  | .str s => .str (loggerSanitizeString s)
  | .arrCons h t => .arrCons (sanitizeForLogging h) (sanitizeForLogging t)
  | .objCons k v t =>
    if keySensitive k then .objCons k (.str "[REDACTED]") (sanitizeForLogging t)
    else .objCons k (sanitizeForLogging v) (sanitizeForLogging t)
  | v => v

/-! ### Rate limiter -/

/-- Per-key window record. -/
structure RateWindow where
  count : Nat
  windowStart : Nat
deriving DecidableEq, Repr

/-- Rate-limiter state: configuration plus the per-key window table. -/
structure RateLimiter where
  maxRequests : Nat
  windowMs : Nat
  requests : List (String × RateWindow)
deriving DecidableEq, Repr

/-- Fresh limiter with an empty window table. -/
def mkRateLimiter (maxRequests windowMs : Nat) : RateLimiter :=
  { maxRequests := maxRequests, windowMs := windowMs, requests := [] }

def lookupWindow (key : String) : List (String × RateWindow) → Option RateWindow
  | [] => none
  | (k, w) :: rest => if k == key then some w else lookupWindow key rest

def setWindow (key : String) (w : RateWindow) :
    List (String × RateWindow) → List (String × RateWindow)
  | [] => [(key, w)]
  | (k, w0) :: rest =>
    if k == key then (k, w) :: rest else (k, w0) :: setWindow key w rest

/-- Modelled from the spec: the rate-limiter implementation file
(rate-limiter.ts) is absent from the sources; only its test suite and
its callers are present.  Following the isAllowed contract of
specification section 4.1: no window for the key means create one with
count 1 and windowStart now and admit; an expired window (now minus
windowStart at least the window duration) is reset to count 1 and the
call admitted; a current window with count below maxRequests is
incremented and the call admitted; otherwise the call is rejected.
Time is in milliseconds as a natural number. -/
def isAllowed (rl : RateLimiter) (key : String) (now : Nat) : Bool × RateLimiter :=
  match lookupWindow key rl.requests with
  | none =>
    (true, { rl with requests := setWindow key ⟨1, now⟩ rl.requests })
  | some w =>
    if rl.windowMs ≤ now - w.windowStart then
      (true, { rl with requests := setWindow key ⟨1, now⟩ rl.requests })
    else if w.count < rl.maxRequests then
      (true, { rl with requests := setWindow key ⟨w.count + 1, w.windowStart⟩ rl.requests })
    else (false, rl)

/-- Run a sequence of isAllowed calls for one key at the given times,
collecting the verdicts. -/
def runCalls (rl : RateLimiter) (key : String) : List Nat → List Bool × RateLimiter
  | [] => ([], rl)
  | t :: ts =>
    ((isAllowed rl key t).1 :: (runCalls (isAllowed rl key t).2 key ts).1,
     (runCalls (isAllowed rl key t).2 key ts).2)

/-! ### MCP tool handlers (index.ts) -/

/-- A tool call result; the source wraps the text in a single
text-content block. -/
structure ToolResult where
  text : String
deriving DecidableEq, Repr

/-- Property lookup on an embedded value: objects expose their fields,
everything else has no properties. -/
def getProp (name : String) : JsVal → Option JsVal
  | .objCons k v t => if k == name then some v else getProp name t
  | _ => none

/-- Success-path rendering of the fetched items
(JSON.stringify(closedItems, null, 2)); its exact formatting is
irrelevant to every claim, only that it never fails. -/
def jsonStringify : JsVal → String
  | .str s => "\"" ++ s ++ "\""
  | .num n => toString n
  | .jbool b => if b then "true" else "false"
  | .null => "null"
  | .undef => "null"
  | .arrNil => "[]"
  | .arrCons h t => "[" ++ jsonStringify h ++ "," ++ jsonStringify t ++ "]"
  | .objNil => "\x7b\x7d"
  | .objCons k v t =>
    "\x7b\"" ++ k ++ "\":" ++ jsonStringify v ++ "," ++ jsonStringify t ++ "\x7d"

/-- The destructuring of the handler arguments
(boardIds, days with default 7, format with default both); destructuring
null or undefined throws, every other value yields its properties with
absent ones undefined. -/
def destructureArgs (args : JsVal) : Except String (JsVal × JsVal × JsVal) :=
  match args with
  | .null => .error "Cannot destructure property of null"
  | .undef => .error "Cannot destructure property of undefined"
  | _ =>
    let boardIds := (getProp "boardIds" args).getD .undef
    let days :=
      match (getProp "days" args).getD .undef with
      | .undef => .num 7
      | v => v
    let format :=
      match (getProp "format" args).getD .undef with
      | .undef => .str "both"
      | v => v
    .ok (boardIds, days, format)

/-- The try block of the get_closed_items handler: destructure the
arguments, validate them, fetch (the Jira client is an external
collaborator, passed as an oracle that either returns the items or
fails with an error message), render.  Every failure is an error of the
Except. -/
def getClosedItemsTry (args : JsVal)
    (fetch : List String → Int → Except String JsVal) : Except String String := do
  let p ← destructureArgs args
  let validBoardIds ← validateBoardIds p.1
  let validDays ← validateDays p.2.1
  let items ← fetch validBoardIds validDays
  pure (jsonStringify items)

/-- The get_closed_items handler (index.ts): the try block on success,
and on any failure a text result of Error: followed by
sanitizeErrorMessage applied to the message string. -/
def getClosedItemsTool (args : JsVal)
    (fetch : List String → Int → Except String JsVal) : ToolResult :=
  match getClosedItemsTry args fetch with
  | .ok text => ⟨text⟩
  | .error msg => ⟨"Error: " ++ sanitizeErrorOnString msg⟩

/-- The try block of the scaffold_announcement handler: destructure,
validate board ids, days and format, fetch, then render through the
scaffolder (an external collaborator passed as a total oracle). -/
def scaffoldAnnouncementTry (args : JsVal)
    (fetch : List String → Int → Except String JsVal)
    (gen : JsVal → String → String) : Except String String := do
  let p ← destructureArgs args
  let validBoardIds ← validateBoardIds p.1
  let validDays ← validateDays p.2.1
  let validFormat ← validateFormat p.2.2
  let items ← fetch validBoardIds validDays
  pure (gen items validFormat)

/-- The scaffold_announcement handler (index.ts). -/
def scaffoldAnnouncementTool (args : JsVal)
    (fetch : List String → Int → Except String JsVal)
    (gen : JsVal → String → String) : ToolResult :=
  match scaffoldAnnouncementTry args fetch gen with
  | .ok text => ⟨text⟩
  | .error msg => ⟨"Error: " ++ sanitizeErrorOnString msg⟩

/-- A character list containing no case-insensitive occurrence of the
script-open tag. -/
def noScriptOpen : List Char → Bool
  | [] => true
  | c :: cs => !(ciStarts scriptOpenL (c :: cs)) && noScriptOpen cs

/-- A JSON-like value all of whose string leaves contain no
case-insensitive occurrence of the script-open tag. -/
def cleanVal : JsVal → Bool
  | .str s => noScriptOpen s.data
  | .arrCons h t => cleanVal h && cleanVal t
  | .objCons _ v t => cleanVal v && cleanVal t
  | _ => true

/-! ### Predicates used to state the claims -/

/-- Guard of the amended totality claim: the message property, when
present and truthy, is a string. -/
def messageSafe (e : JsVal) : Bool :=
  match getMessage e with
  | some (.str _) => true
  | some v => !truthy v
  | none => true

/-- Whether pat occurs case-sensitively anywhere in a character list. -/
def hasSub (pat : List Char) : List Char → Bool
  | [] => litStarts pat []
  | c :: cs => litStarts pat (c :: cs) || hasSub pat cs

def bearerTokLit : List Char := "[TOKEN_REDACTED]".data

def apiValLit : List Char := "[REDACTED]".data

/-- No substring of cs matches the URL pattern. -/
def urlFree (cs : List Char) : Prop := ∀ n, urlHead (cs.drop n) = none

/-- No substring of cs matches the email pattern. -/
def emailFree (cs : List Char) : Prop := ∀ n, emailHead (cs.drop n) = none

/-- Every Bearer match inside cs carries the redacted token. -/
def bearerRedacted (cs : List Char) : Prop :=
  ∀ n tok, bearerTokAt (cs.drop n) = some tok → tok = bearerTokLit

/-- Every api-token match inside cs carries the redacted value. -/
def apiRedacted (cs : List Char) : Prop :=
  ∀ n v, apiValAt (cs.drop n) = some v → v = apiValLit

def httpPreL : List Char := ['h', 't', 't', 'p', ':', '/', '/']

def httpsPreL : List Char := ['h', 't', 't', 'p', 's', ':', '/', '/']

/-- Characters that can appear in the fixed prefix of the URL pattern. -/
def urlPatChar (c : Char) : Bool :=
  c == 'h' || c == 't' || c == 'p' || c == 's' || c == ':' || c == '/'

/-- The local-character run of a list stops strictly inside it at a
character other than the at sign (so no email match can start at its
head and escape past it). -/
def emailBlock (A : List Char) : Bool :=
  match A.dropWhile isLocalChar with
  | [] => false
  | c :: _ => c != '@'

/-- A list starting with a non-whitespace character. -/
def headNWS (l : List Char) : Prop := ∃ c tl, l = c :: tl ∧ isWS c = false

/-- A list that is empty or starts with whitespace. -/
def headWSE (l : List Char) : Prop :=
  l = [] ∨ ∃ c tl, l = c :: tl ∧ isWS c = true

/-- Shape of a replace-pass output against its input: either nothing
fired and the output is the input, or input and output share a prefix P,
after which the input has a match and the output carries the literal,
the remaining output satisfying the pass-specific rest fact R (for the
URL, Bearer and api passes R is whitespace-headedness of the post-match
text; the email pass guarantees nothing there). -/
def scanRel (m : List Char → Option Nat) (lit : List Char)
    (R : List Char → Prop) (cs out : List Char) : Prop :=
  out = cs
  ∨ ∃ P d rest, cs = P ++ d ∧ out = P ++ (lit ++ rest) ∧ m d ≠ none
      ∧ R rest

/-! ### Basic lemmas about the script stripper -/

theorem stripAux_id : ∀ (fuel : Nat) (cs : List Char),
    noScriptOpen cs = true → stripAux fuel cs = cs := by
  intro fuel
  induction fuel with
  | zero => intro cs _; rfl
  | succ n ih =>
    intro cs h
    cases cs with
    | nil => rfl
    | cons c cs =>
      simp only [noScriptOpen, Bool.and_eq_true, Bool.not_eq_true'] at h
      have hm : scriptHeadMatch (c :: cs) = none := by
        simp [scriptHeadMatch, h.1]
      simp only [stripAux, hm]
      rw [ih cs h.2]

theorem stripScriptTags_id (s : String) (h : noScriptOpen s.data = true) :
    stripScriptTags s = s := by
  cases s with
  | mk data =>
    show String.mk (stripAux (data.length + 1) data) = String.mk data
    rw [stripAux_id _ data h]

theorem sanitizeJiraResponse_id (v : JsVal) (h : cleanVal v = true) :
    sanitizeJiraResponse v = v := by
  induction v with
  | str s => exact congrArg JsVal.str (stripScriptTags_id s h)
  | num n => rfl
  | jbool b => rfl
  | null => rfl
  | undef => rfl
  | arrNil => rfl
  | arrCons a t iha iht =>
    simp only [cleanVal, Bool.and_eq_true] at h
    simp only [sanitizeJiraResponse, iha h.1, iht h.2]
  | objNil => rfl
  | objCons k a t iha iht =>
    simp only [cleanVal, Bool.and_eq_true] at h
    simp only [sanitizeJiraResponse, iha h.1, iht h.2]

/-! ### Claim C2 -/

/-- C2 counterexample: sanitizeResponseBody is not idempotent.  On the
string below, whose overlapping script constructs hide one script block
inside another, a single pass removes the inner block and thereby
exposes a fresh script block, which only a second pass removes. -/
theorem C2_counterexample :
    sanitizeJiraResponse (sanitizeJiraResponse
        (.str "<scr<script>x</script>ipt>y</script>"))
      ≠ sanitizeJiraResponse (.str "<scr<script>x</script>ipt>y</script>") := by
  decide

/-- C2 amended: sanitizeResponseBody is idempotent on every JSON-like
value whose string leaves contain no case-insensitive occurrence of the
script-open tag; on such values one pass is already the identity.  Full
idempotence fails (see the counterexample). -/
theorem C2_sanitize_idempotent_on_clean (v : JsVal) (h : cleanVal v = true) :
    sanitizeJiraResponse (sanitizeJiraResponse v) = sanitizeJiraResponse v := by
  rw [sanitizeJiraResponse_id v h, sanitizeJiraResponse_id v h]

theorem C2_witness :
    cleanVal (.objCons "name" (.str "hello world") .objNil) = true ∧
    sanitizeJiraResponse (sanitizeJiraResponse
        (.objCons "name" (.str "hello world") .objNil))
      = sanitizeJiraResponse (.objCons "name" (.str "hello world") .objNil) :=
  ⟨by decide, C2_sanitize_idempotent_on_clean _ (by decide)⟩

/-! ### Claim C3 -/

/-- C3 counterexample: sanitizeErrorText is not total.  An input whose
message field is the truthy non-string 5 makes the replace call of the
original throw a TypeError instead of returning a string. -/
theorem C3_counterexample :
    sanitizeErrorMessage (.objCons "message" (.num 5) .objNil)
      = .error "TypeError: message.replace is not a function" := rfl

/-- C3 amended: sanitizeErrorText returns a string on every input whose
message property, when present and truthy, is a string (in particular
when the message field is absent, null, or falsy); it throws exactly
when a truthy non-string message is present. -/
theorem C3_total_on_safe (e : JsVal) (h : messageSafe e = true) :
    ∃ s, sanitizeErrorMessage e = .ok s := by
  unfold messageSafe at h
  cases hm : getMessage e with
  | none =>
    exact ⟨redactMessage "An error occurred", by simp [sanitizeErrorMessage, hm]⟩
  | some v =>
    rw [hm] at h
    cases v with
    | str s =>
      cases htr : truthy (.str s) with
      | true =>
        exact ⟨redactMessage s, by simp [sanitizeErrorMessage, hm, htr]⟩
      | false =>
        exact ⟨redactMessage "An error occurred", by
          simp [sanitizeErrorMessage, hm, htr]⟩
    | num n =>
      have hf : truthy (.num n) = false := by simpa using h
      exact ⟨redactMessage "An error occurred", by
        simp [sanitizeErrorMessage, hm, hf]⟩
    | jbool b =>
      have hf : truthy (.jbool b) = false := by simpa using h
      exact ⟨redactMessage "An error occurred", by
        simp [sanitizeErrorMessage, hm, hf]⟩
    | null =>
      exact ⟨redactMessage "An error occurred", by
        simp [sanitizeErrorMessage, hm, truthy]⟩
    | undef =>
      exact ⟨redactMessage "An error occurred", by
        simp [sanitizeErrorMessage, hm, truthy]⟩
    | arrNil => simp [truthy] at h
    | arrCons a t => simp [truthy] at h
    | objNil => simp [truthy] at h
    | objCons k a t => simp [truthy] at h

theorem C3_witness :
    messageSafe (.objCons "message" (.num 0) .objNil) = true ∧
    ∃ s, sanitizeErrorMessage (.objCons "message" (.num 0) .objNil) = .ok s :=
  ⟨by decide, C3_total_on_safe _ (by decide)⟩

/-! ### Claim C4 -/

/-- C4 counterexample: a plain string input is not passed through the
redactions; strings expose no message property, so the fallback fires
instead. -/
theorem C4_counterexample :
    sanitizeErrorMessage (.str "hello") ≠ .ok "hello" := by
  rw [show sanitizeErrorMessage (.str "hello") = .ok "An error occurred" from by
    rw [show sanitizeErrorMessage (.str "hello")
        = .ok (redactMessage "An error occurred") from rfl]
    rw [show redactMessage "An error occurred" = "An error occurred" from by decide]]
  intro h
  exact absurd (Except.ok.inj h) (by decide)

/-- C4 amended: sanitizeErrorText uses the message field only when it is
present and truthy; every other input — every plain string, every input
without a message property, and every input whose message property is
present but falsy — yields the redacted fallback An error occurred
(which the redactions leave unchanged). -/
theorem C4_message_extraction :
    (∀ s : String, sanitizeErrorMessage (.str s) = .ok "An error occurred")
    ∧ (∀ (e : JsVal) (s : String), getMessage e = some (.str s) →
        truthy (.str s) = true → sanitizeErrorMessage e = .ok (redactMessage s))
    ∧ (∀ e : JsVal, getMessage e = none →
        sanitizeErrorMessage e = .ok "An error occurred")
    ∧ (∀ (e v : JsVal), getMessage e = some v → truthy v = false →
        sanitizeErrorMessage e = .ok "An error occurred") := by
  refine ⟨fun s => ?_, fun e s h ht => ?_, fun e h => ?_, fun e v h ht => ?_⟩
  · rw [show sanitizeErrorMessage (.str s)
        = .ok (redactMessage "An error occurred") from rfl]
    rw [show redactMessage "An error occurred" = "An error occurred" from by decide]
  · simp only [sanitizeErrorMessage, h, ht, if_true]
  · simp only [sanitizeErrorMessage, h]
    rw [show redactMessage "An error occurred" = "An error occurred" from by decide]
  · simp only [sanitizeErrorMessage, h, ht, Bool.false_eq_true, if_false]
    rw [show redactMessage "An error occurred" = "An error occurred" from by decide]

theorem C4_witness :
    sanitizeErrorMessage (.objCons "message" (.str "Bearer abc") .objNil)
      = .ok "Bearer [TOKEN_REDACTED]"
    ∧ sanitizeErrorMessage (.objCons "message" (.num 0) .objNil)
      = .ok "An error occurred" := by
  constructor
  · rw [C4_message_extraction.2.1 (.objCons "message" (.str "Bearer abc") .objNil)
      "Bearer abc" rfl (by decide)]
    rw [show redactMessage "Bearer abc" = "Bearer [TOKEN_REDACTED]" from by decide]
  · exact C4_message_extraction.2.2.2 (.objCons "message" (.num 0) .objNil)
      (.num 0) rfl (by decide)

/-! ### Identity of a replace pass that never fires -/

theorem replAux_id (m : List Char → Option Nat) (lit : List Char) :
    ∀ (fuel : Nat) (cs : List Char), (∀ n, m (cs.drop n) = none) →
      replAux m lit fuel cs = cs := by
  intro fuel
  induction fuel with
  | zero => intro cs _; rfl
  | succ k ih =>
    intro cs h
    cases cs with
    | nil => rfl
    | cons c cs =>
      have h0 : m (c :: cs) = none := h 0
      simp only [replAux, h0]
      rw [ih cs (fun n => h (n + 1))]

theorem replRun_id (m : List Char → Option Nat) (lit : List Char)
    (cs : List Char) (h : ∀ n, m (cs.drop n) = none) : replRun m lit cs = cs :=
  replAux_id m lit _ cs h

theorem litStarts_hasSub (pat : List Char) :
    ∀ (cs : List Char) (n : Nat), litStarts pat (cs.drop n) = true →
      hasSub pat cs = true := by
  intro cs
  induction cs with
  | nil => intro n h; cases n <;> simpa [hasSub] using h
  | cons c cs ih =>
    intro n h
    cases n with
    | zero => simp only [hasSub, Bool.or_eq_true]; exact Or.inl (by simpa using h)
    | succ n =>
      simp only [hasSub, Bool.or_eq_true]
      exact Or.inr (ih n (by simpa using h))

theorem ciStarts_hasCISub (pat : List Char) :
    ∀ (cs : List Char) (n : Nat), ciStarts pat (cs.drop n) = true →
      hasCISub pat cs = true := by
  intro cs
  induction cs with
  | nil => intro n h; cases n <;> simpa [hasCISub] using h
  | cons c cs ih =>
    intro n h
    cases n with
    | zero => simp only [hasCISub, Bool.or_eq_true]; exact Or.inl (by simpa using h)
    | succ n =>
      simp only [hasCISub, Bool.or_eq_true]
      exact Or.inr (ih n (by simpa using h))

theorem litStarts_to_ciStarts (pat : List Char) :
    ∀ (l : List Char), litStarts pat l = true →
      ciStarts (pat.map Char.toLower) l = true := by
  induction pat with
  | nil => intro l _; simp [ciStarts]
  | cons p ps ih =>
    intro l h
    cases l with
    | nil => simp [litStarts] at h
    | cons c l =>
      simp only [litStarts, Bool.and_eq_true, beq_iff_eq] at h
      simp only [List.map, ciStarts, Bool.and_eq_true, beq_iff_eq]
      exact ⟨by rw [h.1], ih l h.2⟩

theorem urlHead_none_of_noSub (cs : List Char)
    (h : hasSub ['h', 't', 't', 'p'] cs = false) :
    ∀ n, urlHead (cs.drop n) = none := by
  intro n
  unfold urlHead
  split
  next hl => exact absurd (litStarts_hasSub _ cs n hl) (by simp [h])
  next => rfl

theorem bearerHead_none_of_noCI (cs : List Char)
    (h : hasCISub ['b', 'e', 'a', 'r', 'e', 'r'] cs = false) :
    ∀ n, bearerHead (cs.drop n) = none := by
  intro n
  unfold bearerHead
  split
  next hl =>
    have := litStarts_to_ciStarts ['B', 'e', 'a', 'r', 'e', 'r'] _ hl
    rw [show (['B', 'e', 'a', 'r', 'e', 'r'].map Char.toLower)
        = ['b', 'e', 'a', 'r', 'e', 'r'] from by decide] at this
    exact absurd (ciStarts_hasCISub _ cs n this) (by simp [h])
  next => rfl

theorem bearerHeadCI_none_of_noCI (cs : List Char)
    (h : hasCISub ['b', 'e', 'a', 'r', 'e', 'r'] cs = false) :
    ∀ n, bearerHeadCI (cs.drop n) = none := by
  intro n
  unfold bearerHeadCI
  split
  next hl => exact absurd (ciStarts_hasCISub _ cs n hl) (by simp [h])
  next => rfl

theorem apiPre_none_of_noCI (cs : List Char)
    (h : hasCISub ['a', 'p', 'i'] cs = false) :
    ∀ n, apiPre (cs.drop n) = none := by
  intro n
  unfold apiPre
  split
  next hl => exact absurd (ciStarts_hasCISub _ cs n hl) (by simp [h])
  next => rfl

theorem apiHead_none_of_noCI (cs : List Char)
    (h : hasCISub ['a', 'p', 'i'] cs = false) :
    ∀ n, apiHead (cs.drop n) = none := by
  intro n
  unfold apiHead
  rw [apiPre_none_of_noCI cs h n]

theorem passwordHead_none_of_noCI (cs : List Char)
    (h : hasCISub ['p', 'a', 's', 's', 'w', 'o', 'r', 'd'] cs = false) :
    ∀ n, passwordHead (cs.drop n) = none := by
  intro n
  unfold passwordHead
  split
  next hl => exact absurd (ciStarts_hasCISub _ cs n hl) (by simp [h])
  next => rfl

theorem emailHead_none_of_noAt (cs : List Char) (h : ('@' : Char) ∉ cs) :
    ∀ n, emailHead (cs.drop n) = none := by
  intro n
  simp only [emailHead]
  split
  next => rfl
  next =>
    split
    next heq =>
      exfalso
      apply h
      have h1 : ('@' : Char) ∈ ((cs.drop n).drop
          ((cs.drop n).takeWhile isLocalChar).length) := by
        rw [heq]; exact List.mem_cons_self _ _
      exact List.drop_subset _ _ (List.drop_subset _ _ h1)
    next => rfl

/-! ### Claim C6 -/

/-- C6 counterexample: the logger's string sanitization and
sanitizeErrorText disagree: the logger has no URL rule, and its bearer
rule substitutes Bearer [REDACTED] rather than
Bearer [TOKEN_REDACTED]. -/
theorem C6_counterexample :
    loggerSanitizeString "https://example.com/x"
        ≠ redactMessage "https://example.com/x"
    ∧ loggerSanitizeString "Bearer abc" ≠ redactMessage "Bearer abc" := by
  constructor <;> decide

/-- C6 amended: the logger applies four redaction rules, but not the
same set as sanitizeErrorText: it shares the api-token and email rules,
replaces bearer tokens case-insensitively with Bearer [REDACTED] instead
of Bearer [TOKEN_REDACTED], adds a password rule, and has no URL rule.
The two functions agree (both are the identity) on strings containing
none of the trigger substrings: no http, no at sign, no case-insensitive
bearer, password or api. -/
theorem C6_logger_vs_error_sanitizer (s : String)
    (h1 : hasSub ['h', 't', 't', 'p'] s.data = false)
    (h2 : ('@' : Char) ∉ s.data)
    (h3 : hasCISub ['b', 'e', 'a', 'r', 'e', 'r'] s.data = false)
    (h4 : hasCISub ['p', 'a', 's', 's', 'w', 'o', 'r', 'd'] s.data = false)
    (h5 : hasCISub ['a', 'p', 'i'] s.data = false) :
    loggerSanitizeString s = redactMessage s := by
  unfold loggerSanitizeString redactMessage
  rw [replRun_id urlHead urlLit s.data (urlHead_none_of_noSub _ h1),
    replRun_id emailHead emailLit s.data (emailHead_none_of_noAt _ h2),
    replRun_id bearerHead bearerLit s.data (bearerHead_none_of_noCI _ h3),
    replRun_id apiHead apiLit s.data (apiHead_none_of_noCI _ h5),
    replRun_id passwordHead passwordLit s.data (passwordHead_none_of_noCI _ h4),
    replRun_id bearerHeadCI bearerLitLogger s.data (bearerHeadCI_none_of_noCI _ h3),
    replRun_id emailHead emailLit s.data (emailHead_none_of_noAt _ h2)]

theorem C6_witness :
    loggerSanitizeString "request failed with status 403"
      = redactMessage "request failed with status 403" :=
  C6_logger_vs_error_sanitizer _ (by decide) (by decide) (by decide)
    (by decide) (by decide)

/-! ### Claim C7 -/

/-- C7 counterexample: with maxRequests zero the very first call for a
fresh key is admitted, because the no-window branch creates the window
and returns true before any quota check. -/
theorem C7_counterexample :
    (isAllowed (mkRateLimiter 0 1000) "user1" 5).1 = true := rfl

/-- C7 amended (spec-modelled rate limiter): with maxRequests zero, a
call that creates or resets the window (the first call for the key, or
one at least a window after windowStart) is admitted; every call inside
a current window is rejected. -/
theorem C7_zero_quota (W : Nat) (key : String) (t1 t2 : Nat)
    (h2 : t2 - t1 < W) :
    (isAllowed (mkRateLimiter 0 W) key t1).1 = true
    ∧ (isAllowed (isAllowed (mkRateLimiter 0 W) key t1).2 key t2).1 = false
    ∧ ∀ t3, W ≤ t3 - t1 →
        (isAllowed (isAllowed (mkRateLimiter 0 W) key t1).2 key t3).1 = true := by
  have hstep : isAllowed (mkRateLimiter 0 W) key t1
      = (true, { maxRequests := 0, windowMs := W,
                 requests := [(key, ⟨1, t1⟩)] }) := rfl
  refine ⟨rfl, ?_, ?_⟩
  · rw [hstep]
    simp only [isAllowed, lookupWindow, beq_self_eq_true, if_true]
    rw [if_neg (by omega)]
    rw [if_neg (by omega)]
  · intro t3 h3
    rw [hstep]
    simp only [isAllowed, lookupWindow, beq_self_eq_true, if_true]
    rw [if_pos h3]

theorem C7_witness :
    (isAllowed (mkRateLimiter 0 1000) "user1" 0).1 = true
    ∧ (isAllowed (isAllowed (mkRateLimiter 0 1000) "user1" 0).2 "user1" 500).1
        = false
    ∧ (isAllowed (isAllowed (mkRateLimiter 0 1000) "user1" 0).2 "user1" 1000).1
        = true := by
  obtain ⟨a, b, c⟩ := C7_zero_quota 1000 "user1" 0 500 (by decide)
  exact ⟨a, b, c 1000 (by decide)⟩

/-! ### Claim C9 -/

/-- C9: validateDays inherits parseInt semantics: any input whose string
form starts (after optional whitespace and sign) with a digit run whose
value lies in 1..90 is accepted, trailing characters ignored and
fractional parts truncated. -/
theorem C9_parseInt_laxity :
    (∀ (v : JsVal) (n : Int), parseInt10 (toJsString v) = some n →
      1 ≤ n → n ≤ 90 → validateDays v = .ok n)
    ∧ validateDays (.str "7.9") = .ok 7
    ∧ validateDays (.str "7days") = .ok 7
    ∧ validateDays (.str "90.99") = .ok 90 := by
  refine ⟨fun v n h h1 h90 => ?_, rfl, rfl, rfl⟩
  unfold validateDays
  rw [h]
  show (if (decide (n < 1) || decide (90 < n)) = true then
      (Except.error "days must be between 1 and 90" : Except String Int)
    else Except.ok n) = Except.ok n
  rw [if_neg (by
    simp only [Bool.or_eq_true, decide_eq_true_eq, not_or]
    constructor <;> omega)]

theorem C9_witness : validateDays (.str "5x") = .ok 5 :=
  C9_parseInt_laxity.1 (.str "5x") 5 (by decide) (by decide) (by decide)

/-! ### Claim C8 -/

theorem isArr_jarr (xs : List JsVal) : isArr (jarr xs) = true := by
  cases xs <;> rfl

theorem arrLen_jarr (xs : List JsVal) : arrLen (jarr xs) = xs.length := by
  induction xs with
  | nil => rfl
  | cons x xs ih => simp [jarr, arrLen, ih]

theorem mapBoardIds_ok : ∀ xs : List JsVal,
    (∀ x ∈ xs, boardIdOk (trimJS (toJsString x)) = true) →
    mapBoardIds (jarr xs) = .ok (xs.map fun x => trimJS (toJsString x)) := by
  intro xs
  induction xs with
  | nil => intro _; rfl
  | cons x xs ih =>
    intro h
    have hx := h x (List.mem_cons_self x xs)
    simp only [jarr, mapBoardIds, hx, if_true]
    rw [ih (fun y hy => h y (List.mem_cons_of_mem x hy))]
    rfl

theorem mapBoardIds_err : ∀ xs : List JsVal,
    (∃ x ∈ xs, boardIdOk (trimJS (toJsString x)) = false) →
    ∃ y ∈ xs, boardIdOk (trimJS (toJsString y)) = false ∧
      mapBoardIds (jarr xs)
        = .error ("Invalid board ID format: " ++ trimJS (toJsString y)) := by
  intro xs
  induction xs with
  | nil =>
    rintro ⟨x, hx, _⟩
    exact absurd hx (List.not_mem_nil x)
  | cons x xs ih =>
    intro h
    cases hx : boardIdOk (trimJS (toJsString x)) with
    | true =>
      have htl : ∃ y ∈ xs, boardIdOk (trimJS (toJsString y)) = false := by
        obtain ⟨y, hy, hb⟩ := h
        cases List.mem_cons.mp hy with
        | inl he => rw [he, hx] at hb; cases hb
        | inr h2 => exact ⟨y, h2, hb⟩
      obtain ⟨y, hy, hb, he⟩ := ih htl
      refine ⟨y, List.mem_cons_of_mem x hy, hb, ?_⟩
      simp only [jarr, mapBoardIds, hx, if_true, he]
      rfl
    | false =>
      refine ⟨x, List.mem_cons_self x xs, hx, ?_⟩
      simp only [jarr, mapBoardIds, hx]
      rfl

/-- C8: the validateBoardIds postcondition: non-arrays, the empty array
and arrays longer than ten elements are rejected with the matching
message; otherwise every element is coerced to its string form and
trimmed, the first trimmed element failing the board-id character test
is named in the error, and when all pass the trimmed list is returned
with order and length preserved. -/
theorem C8_validateBoardIds :
    (∀ v : JsVal, isArr v = false →
      validateBoardIds v = .error "boardIds must be an array")
    ∧ validateBoardIds .arrNil = .error "boardIds cannot be empty"
    ∧ (∀ xs : List JsVal, 10 < xs.length →
        validateBoardIds (jarr xs)
          = .error "Cannot query more than 10 boards at once")
    ∧ (∀ xs : List JsVal, xs ≠ [] → xs.length ≤ 10 →
        (∀ x ∈ xs, boardIdOk (trimJS (toJsString x)) = true) →
        validateBoardIds (jarr xs)
          = .ok (xs.map fun x => trimJS (toJsString x)))
    ∧ (∀ xs : List JsVal, xs ≠ [] → xs.length ≤ 10 →
        (∃ x ∈ xs, boardIdOk (trimJS (toJsString x)) = false) →
        ∃ y ∈ xs, boardIdOk (trimJS (toJsString y)) = false ∧
          validateBoardIds (jarr xs)
            = .error ("Invalid board ID format: " ++ trimJS (toJsString y))) := by
  refine ⟨fun v hv => ?_, rfl, fun xs hlen => ?_, fun xs hne hlen hall => ?_,
    fun xs hne hlen hsome => ?_⟩
  · simp [validateBoardIds, hv]
  · have hne : xs.length ≠ 0 := by omega
    simp [validateBoardIds, isArr_jarr, arrLen_jarr, hne, hlen]
  · have h0 : xs.length ≠ 0 := fun h => hne (List.length_eq_zero.mp h)
    have h10 : ¬ (10 < xs.length) := by omega
    simp [validateBoardIds, isArr_jarr, arrLen_jarr, h0, h10,
      mapBoardIds_ok xs hall]
  · obtain ⟨y, hy, hb, he⟩ := mapBoardIds_err xs hsome
    refine ⟨y, hy, hb, ?_⟩
    have h0 : xs.length ≠ 0 := fun h => hne (List.length_eq_zero.mp h)
    have h10 : ¬ (10 < xs.length) := by omega
    simp [validateBoardIds, isArr_jarr, arrLen_jarr, h0, h10, he]

theorem C8_witness :
    validateBoardIds (jarr [.str "  123  ", .str "board "])
      = .ok ["123", "board"] := by
  rw [C8_validateBoardIds.2.2.2.1 [.str "  123  ", .str "board "]
    (by decide) (by decide) (by decide)]
  rfl

/-! ### Claim C1 -/

theorem runCalls_append : ∀ (l1 : List Nat) (rl : RateLimiter) (key : String)
    (l2 : List Nat),
    runCalls rl key (l1 ++ l2)
      = ((runCalls rl key l1).1 ++ (runCalls (runCalls rl key l1).2 key l2).1,
         (runCalls (runCalls rl key l1).2 key l2).2) := by
  intro l1
  induction l1 with
  | nil => intro rl key l2; rfl
  | cons t ts ih =>
    intro rl key l2
    simp only [List.cons_append, runCalls, List.append_eq, ih]

/-- Inside a current window, each call increments the count and is
admitted while the count stays below the quota. -/
theorem runCalls_current_window (N W : Nat) (key : String) (t0 : Nat) :
    ∀ (ts : List Nat) (c : Nat),
      (∀ t ∈ ts, t - t0 < W) → c + ts.length ≤ N → 1 ≤ c →
      runCalls ⟨N, W, [(key, ⟨c, t0⟩)]⟩ key ts
        = (List.replicate ts.length true, ⟨N, W, [(key, ⟨c + ts.length, t0⟩)]⟩) := by
  intro ts
  induction ts with
  | nil => intro c _ _ _; rfl
  | cons t ts ih =>
    intro c hin hcnt hc1
    have hstep : isAllowed ⟨N, W, [(key, ⟨c, t0⟩)]⟩ key t
        = (true, ⟨N, W, [(key, ⟨c + 1, t0⟩)]⟩) := by
      have hw : ¬ (W ≤ t - t0) := by
        have := hin t (List.mem_cons_self t ts); omega
      have hc : c < N := by
        have : (t :: ts).length = ts.length + 1 := rfl
        omega
      simp only [isAllowed, lookupWindow, beq_self_eq_true, if_true]
      rw [if_neg hw, if_pos hc]
      simp [setWindow]
    simp only [runCalls, hstep]
    rw [ih (c + 1) (fun x hx => hin x (List.mem_cons_of_mem t hx))
      (by simp only [List.length_cons] at hcnt; omega) (by omega)]
    simp only [List.length_cons, List.replicate]
    have : c + 1 + ts.length = c + (ts.length + 1) := by omega
    rw [this]

/-- C1 (spec-modelled rate limiter): for a fresh key and a quota of N
over a window of W, the first N calls inside one window are all
admitted and the next call inside the same window is rejected. -/
theorem C1_fixed_window_admission (N W : Nat) (hN : 1 ≤ N) (hW : 1 ≤ W)
    (key : String) (ts : List Nat) (t0 : Nat) (hlen : ts.length + 1 = N)
    (hin : ∀ t ∈ ts, t - t0 < W) (tN : Nat) (hlast : tN - t0 < W) :
    (runCalls (mkRateLimiter N W) key (t0 :: ts ++ [tN])).1
      = List.replicate N true ++ [false] := by
  have h1 : isAllowed (mkRateLimiter N W) key t0
      = (true, ⟨N, W, [(key, ⟨1, t0⟩)]⟩) := rfl
  have h2 := runCalls_current_window N W key t0 ts 1 hin (by omega) (by omega)
  have h3 : isAllowed ⟨N, W, [(key, ⟨1 + ts.length, t0⟩)]⟩ key tN
      = (false, ⟨N, W, [(key, ⟨1 + ts.length, t0⟩)]⟩) := by
    have hw : ¬ (W ≤ tN - t0) := by omega
    have hc : ¬ (1 + ts.length < N) := by omega
    simp only [isAllowed, lookupWindow, beq_self_eq_true, if_true]
    rw [if_neg hw, if_neg hc]
  show (runCalls (mkRateLimiter N W) key (t0 :: (ts ++ [tN]))).1 = _
  simp only [runCalls, h1, runCalls_append, h2, h3]
  rw [show List.replicate N true ++ [false]
      = true :: (List.replicate ts.length true ++ [false]) from by
    rw [show N = ts.length + 1 from hlen.symm]
    rfl]

theorem C1_witness :
    (runCalls (mkRateLimiter 3 1000) "user1" (0 :: [1, 2] ++ [3])).1
      = List.replicate 3 true ++ [false] :=
  C1_fixed_window_admission 3 1000 (by decide) (by decide) "user1" [1, 2] 0 rfl
    (by decide) 3 (by decide)

/-! ### Claim C10 -/

/-- C10: the tool handlers are total: for every argument value and every
outcome of the external Jira fetch (and scaffolder), each handler
returns a text content result; an error anywhere in the try block
(destructuring, validation, or fetching) is returned as the text Error:
followed by sanitizeErrorMessage applied to the message string, never
re-raised.  In particular a validation failure on a malformed argument
object produces the wrapped sanitized text (third and fourth
conjuncts). -/
theorem C10_handler_totality :
    ∀ (args : JsVal) (fetch : List String → Int → Except String JsVal)
      (gen : JsVal → String → String),
      (∃ t, getClosedItemsTool args fetch = ⟨t⟩
        ∧ (getClosedItemsTry args fetch = .ok t
           ∨ ∃ msg, getClosedItemsTry args fetch = .error msg
               ∧ t = "Error: " ++ sanitizeErrorOnString msg))
      ∧ (∃ t, scaffoldAnnouncementTool args fetch gen = ⟨t⟩
        ∧ (scaffoldAnnouncementTry args fetch gen = .ok t
           ∨ ∃ msg, scaffoldAnnouncementTry args fetch gen = .error msg
               ∧ t = "Error: " ++ sanitizeErrorOnString msg))
      ∧ getClosedItemsTool (.str "oops") fetch = ⟨"Error: An error occurred"⟩
      ∧ scaffoldAnnouncementTool (.str "oops") fetch gen
          = ⟨"Error: An error occurred"⟩ := by
  intro args fetch gen
  refine ⟨?_, ?_, rfl, rfl⟩
  · cases h : getClosedItemsTry args fetch with
    | ok t =>
      exact ⟨t, by simp [getClosedItemsTool, h], Or.inl rfl⟩
    | error m =>
      exact ⟨"Error: " ++ sanitizeErrorOnString m,
        by simp [getClosedItemsTool, h], Or.inr ⟨m, rfl, rfl⟩⟩
  · cases h : scaffoldAnnouncementTry args fetch gen with
    | ok t =>
      exact ⟨t, by simp [scaffoldAnnouncementTool, h], Or.inl rfl⟩
    | error m =>
      exact ⟨"Error: " ++ sanitizeErrorOnString m,
        by simp [scaffoldAnnouncementTool, h], Or.inr ⟨m, rfl, rfl⟩⟩

/-! ### List toolkit for the redaction-completeness proofs -/

theorem litStarts_iff (pat : List Char) :
    ∀ l, litStarts pat l = true ↔ ∃ tl, l = pat ++ tl := by
  induction pat with
  | nil => intro l; simp [litStarts]
  | cons p ps ih =>
    intro l
    cases l with
    | nil =>
      simp only [litStarts]
      constructor
      · intro h; cases h
      · rintro ⟨tl, h⟩; cases h
    | cons c cs =>
      simp only [litStarts, Bool.and_eq_true, beq_iff_eq, ih]
      constructor
      · rintro ⟨rfl, tl, rfl⟩; exact ⟨tl, rfl⟩
      · rintro ⟨tl, h⟩
        injection h with h1 h2
        exact ⟨h1, tl, h2⟩

theorem litStarts_split (pat : List Char) :
    ∀ (a b : List Char),
      litStarts pat (a ++ b)
        = (litStarts (pat.take a.length) a && litStarts (pat.drop a.length) b) := by
  induction pat with
  | nil => intro a b; simp [litStarts]
  | cons p ps ih =>
    intro a b
    cases a with
    | nil => simp [litStarts]
    | cons c cs =>
      simp only [List.cons_append, litStarts, List.length_cons, List.take_succ_cons,
        List.drop_succ_cons, List.append_eq, ih cs b, Bool.and_assoc]

theorem ciStarts_split (pat : List Char) :
    ∀ (a b : List Char),
      ciStarts pat (a ++ b)
        = (ciStarts (pat.take a.length) a && ciStarts (pat.drop a.length) b) := by
  induction pat with
  | nil => intro a b; simp [ciStarts]
  | cons p ps ih =>
    intro a b
    cases a with
    | nil => simp [ciStarts]
    | cons c cs =>
      simp only [List.cons_append, ciStarts, List.length_cons, List.take_succ_cons,
        List.drop_succ_cons, List.append_eq, ih cs b, Bool.and_assoc]

theorem takeWhile_pos (p : Char → Bool) (l : List Char) :
    1 ≤ (l.takeWhile p).length ↔ ∃ c tl, l = c :: tl ∧ p c = true := by
  cases l with
  | nil => simp [List.takeWhile]
  | cons c tl =>
    simp only [List.takeWhile_cons]
    cases hc : p c with
    | true =>
      simp only [if_true]
      constructor
      · intro _; exact ⟨c, tl, rfl, hc⟩
      · intro _; simp
    | false =>
      simp only [Bool.false_eq_true, if_false, List.length_nil]
      constructor
      · omega
      · rintro ⟨c2, tl2, heq, hp⟩
        injection heq with h1 h2
        rw [h1] at hc; rw [hc] at hp; cases hp

theorem takeWhile_two (p : Char → Bool) (l : List Char) :
    2 ≤ (l.takeWhile p).length ↔
      ∃ c1 c2 tl, l = c1 :: c2 :: tl ∧ p c1 = true ∧ p c2 = true := by
  constructor
  · intro h
    cases l with
    | nil => simp [List.takeWhile] at h
    | cons c tl =>
      cases hc : p c with
      | false => simp [List.takeWhile_cons, hc] at h
      | true =>
        cases tl with
        | nil => simp [List.takeWhile_cons, hc, List.takeWhile] at h
        | cons c2 tl2 =>
          cases hc2 : p c2 with
          | false => simp [List.takeWhile_cons, hc, hc2] at h
          | true => exact ⟨c, c2, tl2, rfl, hc, hc2⟩
  · rintro ⟨c1, c2, tl, rfl, h1, h2⟩
    simp [List.takeWhile_cons, h1, h2]

theorem emailSplit_ne_none (run : List Char) :
    emailSplit run ≠ none ↔ ∃ k, k < run.length ∧ validEmailDot run k = true := by
  unfold emailSplit
  rw [Ne, List.getLast?_eq_none_iff]
  constructor
  · intro h
    rcases hne : (List.range run.length).filter (validEmailDot run) with _ | ⟨k, ks⟩
    · exact absurd hne h
    · have hk : k ∈ (List.range run.length).filter (validEmailDot run) := by
        rw [hne]; exact List.mem_cons_self _ _
      rw [List.mem_filter, List.mem_range] at hk
      exact ⟨k, hk.1, hk.2⟩
  · rintro ⟨k, hk, hv⟩ hnil
    have : k ∈ (List.range run.length).filter (validEmailDot run) := by
      rw [List.mem_filter, List.mem_range]; exact ⟨hk, hv⟩
    rw [hnil] at this
    exact absurd this (List.not_mem_nil k)

/-! ### The shape of a replace-pass output -/

theorem replAux_headWSE (m : List Char → Option Nat) (lit : List Char)
    (hnws : ∀ l n, m l = some n → headNWS l) :
    ∀ (fuel : Nat) (l : List Char), headWSE l →
      headWSE (replAux m lit fuel l) := by
  intro fuel l hl
  cases fuel with
  | zero => exact hl
  | succ k =>
    cases hl with
    | inl he => rw [he]; exact Or.inl rfl
    | inr hw =>
      obtain ⟨c, tl, rfl, hws⟩ := hw
      cases hm : m (c :: tl) with
      | some n =>
        obtain ⟨c2, tl2, heq, hnw⟩ := hnws _ _ hm
        injection heq with h1 _
        rw [h1] at hws; rw [hws] at hnw; cases hnw
      | none =>
        simp only [replAux, hm]
        exact Or.inr ⟨c, _, rfl, hws⟩

theorem replShape (m : List Char → Option Nat) (lit : List Char)
    (R : List Char → Prop)
    (hpostR : ∀ l n, m l = some n → R (l.drop n))
    (hRrepl : ∀ fuel l, R l → R (replAux m lit fuel l)) :
    ∀ (fuel : Nat) (cs : List Char),
      scanRel m lit R cs (replAux m lit fuel cs) := by
  intro fuel
  induction fuel with
  | zero => intro cs; exact Or.inl rfl
  | succ k ih =>
    intro cs
    cases cs with
    | nil => exact Or.inl rfl
    | cons c cs =>
      cases hm : m (c :: cs) with
      | some n =>
        refine Or.inr ⟨[], c :: cs, replAux m lit k ((c :: cs).drop n),
          rfl, ?_, by simp [hm], ?_⟩
        · simp [replAux, hm]
        · exact hRrepl k _ (hpostR _ n hm)
      | none =>
        cases ih cs with
        | inl he =>
          refine Or.inl ?_
          simp only [replAux, hm, he]
        | inr hr =>
          obtain ⟨P, d, rest, hcs, hout, hmd, hrest⟩ := hr
          refine Or.inr ⟨c :: P, d, rest, by rw [hcs]; rfl, ?_, hmd, hrest⟩
          simp only [replAux, hm, hout]
          rfl

/-! ### Generic soundness and preservation skeletons for one pass -/

theorem replAux_sound (m : List Char → Option Nat) (lit : List Char)
    (Q R : List Char → Prop)
    (hQnil : Q [])
    (hpos : ∀ l n, m l = some n → 1 ≤ n)
    (hpostR : ∀ l n, m l = some n → R (l.drop n))
    (hRrepl : ∀ fuel l, R l → R (replAux m lit fuel l))
    (hself : ∀ l, m l = none → Q l)
    (hlit : ∀ (j : Nat) (out2 : List Char), (∀ i, Q (out2.drop i)) →
      R out2 → Q (lit.drop j ++ out2))
    (hhead : ∀ (c : Char) (P d rest : List Char),
      m ((c :: P) ++ d) = none → m d ≠ none → R rest →
      (∀ i, Q ((P ++ (lit ++ rest)).drop i)) → Q ((c :: P) ++ (lit ++ rest))) :
    ∀ (fuel : Nat) (cs : List Char), cs.length < fuel →
      ∀ i, Q ((replAux m lit fuel cs).drop i) := by
  intro fuel
  induction fuel with
  | zero => intro cs h; exact absurd h (Nat.not_lt_zero _)
  | succ k ih =>
    intro cs hlen i
    cases cs with
    | nil =>
      show Q ((replAux m lit (k + 1) []).drop i)
      simp only [replAux, List.drop_nil]
      exact hQnil
    | cons c cs =>
      cases hm : m (c :: cs) with
      | some n =>
        have hn := hpos _ _ hm
        have hlen2 : ((c :: cs).drop n).length < k := by
          simp only [List.length_drop, List.length_cons]
          simp only [List.length_cons] at hlen
          omega
        have ihQ := ih _ hlen2
        have hw : R (replAux m lit k ((c :: cs).drop n)) :=
          hRrepl k _ (hpostR _ _ hm)
        show Q ((replAux m lit (k + 1) (c :: cs)).drop i)
        simp only [replAux, hm]
        by_cases hi : i ≤ lit.length
        · rw [List.drop_append_of_le_length hi]
          exact hlit i _ ihQ hw
        · rw [List.drop_append_eq_append_drop,
            List.drop_eq_nil_of_le (by omega), List.nil_append]
          exact ihQ _
      | none =>
        show Q ((replAux m lit (k + 1) (c :: cs)).drop i)
        simp only [replAux, hm]
        cases i with
        | succ j =>
          rw [List.drop_succ_cons]
          exact ih cs (by simp only [List.length_cons] at hlen; omega) j
        | zero =>
          rw [List.drop_zero]
          have hrel := replShape m lit R hpostR hRrepl k cs
          cases hrel with
          | inl he =>
            rw [he]
            exact hself _ hm
          | inr hr =>
            obtain ⟨P, d, rest, hcs, hout, hmd, hrest⟩ := hr
            rw [hout]
            have ihQ := ih cs (by simp only [List.length_cons] at hlen; omega)
            rw [hout] at ihQ
            rw [hcs] at hm
            exact hhead c P d rest hm hmd hrest ihQ

theorem replAux_pres (m : List Char → Option Nat) (lit : List Char)
    (Q R : List Char → Prop)
    (hpostR : ∀ l n, m l = some n → R (l.drop n))
    (hRrepl : ∀ fuel l, R l → R (replAux m lit fuel l))
    (hlit : ∀ (j : Nat) (out2 : List Char), (∀ i, Q (out2.drop i)) →
      R out2 → Q (lit.drop j ++ out2))
    (hhead : ∀ (c : Char) (P d rest : List Char),
      m ((c :: P) ++ d) = none → m d ≠ none → R rest →
      (∀ i, Q (((c :: P) ++ d).drop i)) →
      (∀ i, Q ((P ++ (lit ++ rest)).drop i)) → Q ((c :: P) ++ (lit ++ rest))) :
    ∀ (fuel : Nat) (cs : List Char), (∀ i, Q (cs.drop i)) →
      ∀ i, Q ((replAux m lit fuel cs).drop i) := by
  intro fuel
  induction fuel with
  | zero => intro cs hin i; exact hin i
  | succ k ih =>
    intro cs hin i
    cases cs with
    | nil =>
      show Q ((replAux m lit (k + 1) []).drop i)
      simp only [replAux]
      exact hin i
    | cons c cs =>
      cases hm : m (c :: cs) with
      | some n =>
        have hin2 : ∀ j, Q (((c :: cs).drop n).drop j) := by
          intro j
          rw [List.drop_drop]
          exact hin (n + j)
        have ihQ := ih _ hin2
        have hw : R (replAux m lit k ((c :: cs).drop n)) :=
          hRrepl k _ (hpostR _ _ hm)
        show Q ((replAux m lit (k + 1) (c :: cs)).drop i)
        simp only [replAux, hm]
        by_cases hi : i ≤ lit.length
        · rw [List.drop_append_of_le_length hi]
          exact hlit i _ ihQ hw
        · rw [List.drop_append_eq_append_drop,
            List.drop_eq_nil_of_le (by omega), List.nil_append]
          exact ihQ _
      | none =>
        have hintl : ∀ j, Q (cs.drop j) := fun j => hin (j + 1)
        show Q ((replAux m lit (k + 1) (c :: cs)).drop i)
        simp only [replAux, hm]
        cases i with
        | succ j =>
          rw [List.drop_succ_cons]
          exact ih cs hintl j
        | zero =>
          rw [List.drop_zero]
          have hrel := replShape m lit R hpostR hRrepl k cs
          cases hrel with
          | inl he =>
            rw [he]
            exact hin 0
          | inr hr =>
            obtain ⟨P, d, rest, hcs, hout, hmd, hrest⟩ := hr
            rw [hout]
            have ihQ := ih cs hintl
            rw [hout] at ihQ
            have hin0 : ∀ j, Q (((c :: P) ++ d).drop j) := by
              intro j
              have := hin j
              rw [show (c :: cs) = (c :: P) ++ d from by rw [hcs]; rfl] at this
              exact this
            rw [hcs] at hm
            exact hhead c P d rest hm hmd hrest hin0 ihQ

theorem replRun_sound (m : List Char → Option Nat) (lit : List Char)
    (Q R : List Char → Prop)
    (hQnil : Q [])
    (hpos : ∀ l n, m l = some n → 1 ≤ n)
    (hpostR : ∀ l n, m l = some n → R (l.drop n))
    (hRrepl : ∀ fuel l, R l → R (replAux m lit fuel l))
    (hself : ∀ l, m l = none → Q l)
    (hlit : ∀ (j : Nat) (out2 : List Char), (∀ i, Q (out2.drop i)) →
      R out2 → Q (lit.drop j ++ out2))
    (hhead : ∀ (c : Char) (P d rest : List Char),
      m ((c :: P) ++ d) = none → m d ≠ none → R rest →
      (∀ i, Q ((P ++ (lit ++ rest)).drop i)) → Q ((c :: P) ++ (lit ++ rest)))
    (cs : List Char) : ∀ i, Q ((replRun m lit cs).drop i) :=
  replAux_sound m lit Q R hQnil hpos hpostR hRrepl hself hlit hhead
    (cs.length + 1) cs (by omega)

theorem replRun_pres (m : List Char → Option Nat) (lit : List Char)
    (Q R : List Char → Prop)
    (hpostR : ∀ l n, m l = some n → R (l.drop n))
    (hRrepl : ∀ fuel l, R l → R (replAux m lit fuel l))
    (hlit : ∀ (j : Nat) (out2 : List Char), (∀ i, Q (out2.drop i)) →
      R out2 → Q (lit.drop j ++ out2))
    (hhead : ∀ (c : Char) (P d rest : List Char),
      m ((c :: P) ++ d) = none → m d ≠ none → R rest →
      (∀ i, Q (((c :: P) ++ d).drop i)) →
      (∀ i, Q ((P ++ (lit ++ rest)).drop i)) → Q ((c :: P) ++ (lit ++ rest)))
    (cs : List Char) (hin : ∀ i, Q (cs.drop i)) :
    ∀ i, Q ((replRun m lit cs).drop i) :=
  replAux_pres m lit Q R hpostR hRrepl hlit hhead (cs.length + 1) cs hin

/-! ### Character-class facts -/

theorem isWS_char_cases (c : Char) (h : isWS c = true) :
    c = ' ' ∨ c = '\t' ∨ c = '\n' ∨ c = '\r' ∨ c = '\x0b' ∨ c = '\x0c' := by
  simp only [isWS, Bool.or_eq_true, beq_iff_eq] at h
  tauto

theorem isLocalChar_nws (c : Char) (h : isLocalChar c = true) : isWS c = false := by
  cases hw : isWS c with
  | false => rfl
  | true =>
    rcases isWS_char_cases c hw with rfl | rfl | rfl | rfl | rfl | rfl <;>
      exact absurd h (by decide)

theorem toLower_a_nws (c : Char) (h : c.toLower = 'a') : isWS c = false := by
  cases hw : isWS c with
  | false => rfl
  | true =>
    rcases isWS_char_cases c hw with rfl | rfl | rfl | rfl | rfl | rfl <;>
      exact absurd h (by decide)

/-! ### Run and drop helpers -/

theorem drop_len_takeWhile (p : Char → Bool) : ∀ l : List Char,
    l.drop (l.takeWhile p).length = l.dropWhile p := by
  intro l
  induction l with
  | nil => rfl
  | cons c tl ih =>
    rw [List.takeWhile_cons, List.dropWhile_cons]
    cases hc : p c with
    | true => simpa using ih
    | false => simp

theorem dropWhile_nws_headWSE : ∀ l : List Char,
    headWSE (l.dropWhile (fun c => !isWS c)) := by
  intro l
  induction l with
  | nil => exact Or.inl rfl
  | cons c tl ih =>
    rw [List.dropWhile_cons]
    cases hc : isWS c with
    | true =>
      simp only [hc, Bool.not_true, Bool.false_eq_true, if_false]
      exact Or.inr ⟨c, tl, rfl, hc⟩
    | false => simpa [hc] using ih

theorem append_eq_split (a b c d : List Char) (h : a ++ b = c ++ d)
    (hl : a.length ≤ c.length) : ∃ e, c = a ++ e ∧ b = e ++ d := by
  refine ⟨c.drop a.length, ?_, ?_⟩
  · have h1 : (a ++ b).take a.length = a := List.take_left a b
    rw [h, List.take_append_of_le_length hl] at h1
    conv_lhs => rw [← List.take_append_drop a.length c, h1]
  · have h2 : c = a ++ c.drop a.length := by
      have h1 : (a ++ b).take a.length = a := List.take_left a b
      rw [h, List.take_append_of_le_length hl] at h1
      conv_lhs => rw [← List.take_append_drop a.length c, h1]
    rw [h2, List.append_assoc] at h
    exact List.append_cancel_left h

/-! ### Basic facts about the URL matcher -/

theorem urlHead_some_fwd (l : List Char) (n : Nat) (h : urlHead l = some n) :
    ∃ pre r, (pre = httpsPreL ∨ pre = httpPreL) ∧ l = pre ++ r
      ∧ 1 ≤ (r.takeWhile (fun c => !isWS c)).length
      ∧ n = pre.length + (r.takeWhile (fun c => !isWS c)).length := by
  simp only [urlHead] at h
  split at h
  next h4 =>
    obtain ⟨tl, rfl⟩ := (litStarts_iff _ _).mp h4
    rw [show (['h', 't', 't', 'p'] ++ tl : List Char).drop 4 = tl from rfl] at h
    split at h
    next h5 =>
      obtain ⟨r, rfl⟩ := (litStarts_iff _ _).mp h5
      rw [show ((['s', ':', '/', '/'] : List Char) ++ r).drop 4 = r from rfl] at h
      split at h
      next => cases h
      next hz =>
        injection h with h
        refine ⟨httpsPreL, r, Or.inl rfl, rfl, ?_, ?_⟩
        · simp only [beq_iff_eq] at hz; omega
        · rw [← h]; rfl
    next h5 =>
      split at h
      next h6 =>
        obtain ⟨r, rfl⟩ := (litStarts_iff _ _).mp h6
        rw [show (([':', '/', '/'] : List Char) ++ r).drop 3 = r from rfl] at h
        split at h
        next => cases h
        next hz =>
          injection h with h
          refine ⟨httpPreL, r, Or.inr rfl, rfl, ?_, ?_⟩
          · simp only [beq_iff_eq] at hz; omega
          · rw [← h]; rfl
      next => cases h
  next => cases h

theorem urlHead_pos (l : List Char) (n : Nat) (h : urlHead l = some n) : 1 ≤ n := by
  obtain ⟨pre, r, hp, _, htok, hn⟩ := urlHead_some_fwd l n h
  rcases hp with rfl | rfl <;> (rw [hn]; omega)

theorem urlHead_nws (l : List Char) (n : Nat) (h : urlHead l = some n) :
    headNWS l := by
  obtain ⟨pre, r, hp, rfl, _, _⟩ := urlHead_some_fwd l n h
  rcases hp with rfl | rfl
  · exact ⟨'h', _, rfl, by decide⟩
  · exact ⟨'h', _, rfl, by decide⟩

theorem urlHead_post (l : List Char) (n : Nat) (h : urlHead l = some n) :
    headWSE (l.drop n) := by
  obtain ⟨pre, r, hp, rfl, htok, hn⟩ := urlHead_some_fwd l n h
  rw [hn, List.drop_append, drop_len_takeWhile]
  exact dropWhile_nws_headWSE r

/-! ### Character and case-folding facts -/

theorem char_eq_of_toNat (c : Char) (k : Nat) (d : Char) (hk : d.toNat = k)
    (h : c.toNat = k) : c = d :=
  Char.ext (UInt32.ext (show c.toNat = d.toNat by rw [h, hk]))

theorem toLower_mem (c t u : Char)
    (h1 : ∀ k, k < 91 → 65 ≤ k → Char.ofNat (k + 32) = t → k = u.toNat)
    (h : c.toLower = t) : c = t ∨ c = u := by
  unfold Char.toLower at h
  simp only at h
  by_cases hc : c.toNat ≥ 65 ∧ c.toNat ≤ 90
  · rw [if_pos hc] at h
    exact Or.inr (char_eq_of_toNat c u.toNat u rfl (h1 c.toNat (by omega) (by omega) h))
  · rw [if_neg hc] at h
    exact Or.inl h

theorem toLower_a_mem (c : Char) (h : c.toLower = 'a') : c = 'a' ∨ c = 'A' :=
  toLower_mem c 'a' 'A' (by decide) h

theorem toLower_p_mem (c : Char) (h : c.toLower = 'p') : c = 'p' ∨ c = 'P' :=
  toLower_mem c 'p' 'P' (by decide) h

theorem toLower_t_mem (c : Char) (h : c.toLower = 't') : c = 't' ∨ c = 'T' :=
  toLower_mem c 't' 'T' (by decide) h

theorem isWS_toLower_self (c : Char) (h : isWS c = true) : c.toLower = c := by
  rcases isWS_char_cases c h with rfl | rfl | rfl | rfl | rfl | rfl <;> decide

/-! ### Prefix-test transfer lemmas -/

theorem litStarts_append_of_le (pat a b : List Char) (h : pat.length ≤ a.length) :
    litStarts pat (a ++ b) = litStarts pat a := by
  rw [litStarts_split pat a b, List.take_of_length_le h,
    List.drop_eq_nil_of_le h]
  simp [litStarts]

theorem ciStarts_append_of_le (pat a b : List Char) (h : pat.length ≤ a.length) :
    ciStarts pat (a ++ b) = ciStarts pat a := by
  rw [ciStarts_split pat a b, List.take_of_length_le h,
    List.drop_eq_nil_of_le h]
  simp [ciStarts]

theorem litStarts_cons_false (p c : Char) (ps tl : List Char)
    (h : (c == p) = false) : litStarts (p :: ps) (c :: tl) = false := by
  simp [litStarts, h]

theorem ciStarts_cons_false (p c : Char) (ps tl : List Char)
    (h : (c.toLower == p) = false) : ciStarts (p :: ps) (c :: tl) = false := by
  simp [ciStarts, h]

/-! ### takeWhile helpers -/

theorem takeWhile_append_stop (p : Char → Bool) (x y : List Char)
    (h : (x.takeWhile p).length < x.length) :
    (x ++ y).takeWhile p = x.takeWhile p := by
  rw [List.takeWhile_append, if_neg (by omega)]

theorem takeWhile_eq_self_of_len (p : Char → Bool) (x : List Char)
    (h : (x.takeWhile p).length = x.length) : x.takeWhile p = x :=
  (List.takeWhile_prefix p).eq_of_length h

theorem takeWhile_append_sat (p : Char → Bool) (x y : List Char)
    (h : (x.takeWhile p).length = x.length) :
    (x ++ y).takeWhile p = x ++ y.takeWhile p := by
  rw [List.takeWhile_append, if_pos h]

theorem takeWhile_append_head_false (p : Char → Bool) (x y : List Char)
    (hy : ∀ c tl, y = c :: tl → p c = false) :
    (x ++ y).takeWhile p = x.takeWhile p := by
  rw [List.takeWhile_append]
  split
  · rename_i h
    rw [takeWhile_eq_self_of_len p x h]
    cases y with
    | nil => simp
    | cons c tl => simp [List.takeWhile_cons, hy c tl rfl]
  · rfl

theorem takeWhile_len_mono (p : Char → Bool) (a b : List Char) :
    (a.takeWhile p).length ≤ ((a ++ b).takeWhile p).length := by
  rw [List.takeWhile_append]
  split
  · simp only [List.length_append]; omega
  · omega

theorem takeWhile_all_sat (p : Char → Bool) (x : List Char)
    (h : (x.takeWhile p).length = x.length) : ∀ c ∈ x, p c = true := by
  intro c hc
  rw [← takeWhile_eq_self_of_len p x h] at hc
  exact List.mem_takeWhile_imp hc

theorem takeWhile_le_length (p : Char → Bool) (l : List Char) :
    (l.takeWhile p).length ≤ l.length :=
  (List.takeWhile_prefix p).length_le

/-! ### URL matcher junction -/

theorem urlHead_cons_ne_h (c : Char) (tl : List Char) (hc : (c == 'h') = false) :
    urlHead (c :: tl) = none := by
  simp [urlHead, litStarts, hc]

theorem urlHead_litdrop (lit : List Char)
    (hno : lit.all (fun c => !(c == 'h')) = true)
    (j : Nat) (out2 : List Char) (hq : urlHead out2 = none) :
    urlHead (lit.drop j ++ out2) = none := by
  cases hd : lit.drop j with
  | nil => simpa using hq
  | cons c tl =>
    have hc : c ∈ lit :=
      List.mem_of_mem_drop (by rw [hd]; exact List.mem_cons_self c tl)
    have h2 := List.all_eq_true.mp hno c hc
    rw [List.cons_append]
    exact urlHead_cons_ne_h c _ (by simpa using h2)

theorem urlHead_fire (pre r : List Char) (hp : pre = httpsPreL ∨ pre = httpPreL)
    (hr : headNWS r) : urlHead (pre ++ r) ≠ none := by
  obtain ⟨c, tl, rfl, hnw⟩ := hr
  rcases hp with rfl | rfl
  · show urlHead (httpsPreL ++ (c :: tl)) ≠ none
    simp +decide [urlHead, httpsPreL, litStarts, List.takeWhile_cons, hnw]
  · show urlHead (httpPreL ++ (c :: tl)) ≠ none
    simp +decide [urlHead, httpPreL, litStarts, List.takeWhile_cons, hnw]

theorem httpsPre_chars : ∀ c ∈ httpsPreL, urlPatChar c = true := by decide

theorem httpPre_chars : ∀ c ∈ httpPreL, urlPatChar c = true := by decide

theorem urlJunction (q d rest lit : List Char)
    (hq : urlHead (q ++ d) = none)
    (hd : headNWS d)
    (c0 : Char) (tl0 : List Char) (hlit : lit = c0 :: tl0)
    (hc0 : urlPatChar c0 = false) :
    urlHead (q ++ (lit ++ rest)) = none := by
  cases hout : urlHead (q ++ (lit ++ rest)) with
  | none => rfl
  | some n =>
    exfalso
    obtain ⟨pre, r, hp, heq, htok, -⟩ := urlHead_some_fwd _ n hout
    by_cases hle : pre.length ≤ q.length
    · obtain ⟨e, hqe, hre⟩ := append_eq_split pre r q (lit ++ rest) heq.symm hle
      have hnws : headNWS (e ++ d) := by
        cases e with
        | nil => simpa using hd
        | cons ce te =>
          rw [hre, List.cons_append] at htok
          obtain ⟨c2, tl2, heq2, hp2⟩ := (takeWhile_pos _ _).mp htok
          injection heq2 with h1 _
          refine ⟨ce, te ++ d, rfl, ?_⟩
          rw [h1]
          simpa using hp2
      exact urlHead_fire pre (e ++ d) hp hnws
        (by rw [← List.append_assoc, ← hqe]; exact hq)
    · have hlt : q.length ≤ pre.length := by omega
      obtain ⟨e, hpe, hler⟩ := append_eq_split q (lit ++ rest) pre r heq hlt
      cases e with
      | nil => rw [hpe] at hle; simp at hle
      | cons c1 etl =>
        have hc1 : c1 = c0 := by
          rw [hlit, List.cons_append] at hler
          injection hler with h1 _
          exact h1.symm
        have hmem : c1 ∈ pre := by
          rw [hpe]; exact List.mem_append_right q (List.mem_cons_self c1 etl)
        have hpat : urlPatChar c1 = true := by
          rcases hp with rfl | rfl
          · exact httpsPre_chars c1 hmem
          · exact httpPre_chars c1 hmem
        rw [hc1, hc0] at hpat
        cases hpat

/-! ### Email matcher junction -/

theorem emailBlock_stop (A : List Char) (h : emailBlock A = true) :
    ∃ cb tb, A.dropWhile isLocalChar = cb :: tb ∧ cb ≠ '@'
      ∧ (A.takeWhile isLocalChar).length < A.length := by
  unfold emailBlock at h
  split at h
  · cases h
  · rename_i cb tb heq
    refine ⟨cb, tb, heq, by simpa using h, ?_⟩
    conv_rhs => rw [← List.takeWhile_append_dropWhile isLocalChar A]
    rw [heq]
    simp only [List.length_append, List.length_cons]
    omega

theorem emailHead_some_fwd (l : List Char) (n : Nat) (h : emailHead l = some n) :
    1 ≤ (l.takeWhile isLocalChar).length
    ∧ ∃ r, l.drop (l.takeWhile isLocalChar).length = '@' :: r
        ∧ emailSplit (r.takeWhile isDomChar) ≠ none := by
  simp only [emailHead] at h
  split at h
  · cases h
  · rename_i hz
    split at h
    · rename_i r heq
      split at h
      · rename_i k hk
        refine ⟨by simp only [beq_iff_eq] at hz; omega, r, heq, ?_⟩
        rw [hk]
        exact fun hc => Option.noConfusion hc
      · cases h
    · cases h

theorem emailHead_nws (l : List Char) (n : Nat) (h : emailHead l = some n) :
    headNWS l := by
  obtain ⟨h1, -⟩ := emailHead_some_fwd l n h
  obtain ⟨c, tl, rfl, hp⟩ := (takeWhile_pos _ _).mp h1
  exact ⟨c, tl, rfl, isLocalChar_nws c hp⟩

theorem emailHead_fire (l : List Char)
    (h1 : 1 ≤ (l.takeWhile isLocalChar).length)
    (r : List Char) (h2 : l.drop (l.takeWhile isLocalChar).length = '@' :: r)
    (h3 : emailSplit (r.takeWhile isDomChar) ≠ none) :
    emailHead l ≠ none := by
  simp only [emailHead]
  rw [if_neg (by simp only [beq_iff_eq]; omega)]
  rw [h2]
  cases hs : emailSplit (r.takeWhile isDomChar) with
  | none => exact absurd hs h3
  | some k => simp [hs]

theorem validDot_mono (a b : List Char) (k : Nat)
    (h : validEmailDot a k = true) : validEmailDot (a ++ b) k = true := by
  simp only [validEmailDot, Bool.and_eq_true, decide_eq_true_eq, beq_iff_eq] at h ⊢
  obtain ⟨⟨h1, h2⟩, h3⟩ := h
  have hk : k < a.length := by
    by_contra hk
    rw [List.getElem?_eq_none (by omega)] at h2
    cases h2
  refine ⟨⟨h1, ?_⟩, ?_⟩
  · rw [List.getElem?_append_left hk]
    exact h2
  · rw [List.drop_append_of_le_length (by omega)]
    calc 2 ≤ ((a.drop (k + 1)).takeWhile (fun c => c.isAlpha)).length := h3
      _ ≤ _ := takeWhile_len_mono _ _ b

theorem emailHead_blocked (A x : List Char) (h : emailBlock A = true) :
    emailHead (A ++ x) = none := by
  obtain ⟨cb, tb, hdw, hne, hlt⟩ := emailBlock_stop A h
  have htw : (A ++ x).takeWhile isLocalChar = A.takeWhile isLocalChar :=
    takeWhile_append_stop _ _ _ hlt
  have hdrop : (A ++ x).drop ((A ++ x).takeWhile isLocalChar).length
      = cb :: (tb ++ x) := by
    rw [htw, List.drop_append_of_le_length (by omega), drop_len_takeWhile, hdw]
    rfl
  simp only [emailHead]
  split
  · rfl
  · rw [hdrop]
    split
    · rename_i r heq
      injection heq with hcb _
      exact absurd hcb hne
    · rfl

theorem emailJunction (q d rest lit : List Char)
    (hm : emailHead (q ++ d) = none)
    (hB : emailBlock lit = true)
    (hT : (lit.takeWhile isDomChar).length < lit.length)
    (hdot : (lit.takeWhile isDomChar).all (fun c => !(c == '.')) = true)
    (halt : lit.takeWhile isDomChar = []
      ∨ 2 ≤ ((d.takeWhile isDomChar).takeWhile (fun c => c.isAlpha)).length) :
    emailHead (q ++ (lit ++ rest)) = none := by
  cases hout : emailHead (q ++ (lit ++ rest)) with
  | none => rfl
  | some n =>
    exfalso
    obtain ⟨h1, r, h2, h3⟩ := emailHead_some_fwd _ n hout
    by_cases hcase : (q.takeWhile isLocalChar).length < q.length
    · -- the local run stops inside q
      have htw : (q ++ (lit ++ rest)).takeWhile isLocalChar
          = q.takeWhile isLocalChar := takeWhile_append_stop _ _ _ hcase
      have htwi : (q ++ d).takeWhile isLocalChar = q.takeWhile isLocalChar :=
        takeWhile_append_stop _ _ _ hcase
      rw [htw] at h1 h2
      rw [List.drop_append_of_le_length (by omega),
        List.drop_eq_getElem_cons hcase, List.cons_append] at h2
      injection h2 with hat hrest
      -- r = q.drop (lp + 1) ++ (lit ++ rest)
      have h3' : emailSplit
          (((q.drop ((q.takeWhile isLocalChar).length + 1)) ++ d).takeWhile
            isDomChar) ≠ none := by
        rw [← hrest] at h3
        set q2 := q.drop ((q.takeWhile isLocalChar).length + 1) with hq2
        by_cases hdom : (q2.takeWhile isDomChar).length < q2.length
        · rwa [takeWhile_append_stop _ _ _ hdom] at h3 ⊢
        · have hq2len : (q2.takeWhile isDomChar).length = q2.length := by
            have := takeWhile_le_length isDomChar q2
            omega
          rw [takeWhile_append_sat _ _ _ hq2len] at h3 ⊢
          rw [takeWhile_append_stop _ _ _ hT] at h3
          set t := lit.takeWhile isDomChar with ht
          set s := d.takeWhile isDomChar with hs
          obtain ⟨k, hklt, hkv⟩ := (emailSplit_ne_none _).mp h3
          simp only [validEmailDot, Bool.and_eq_true, decide_eq_true_eq,
            beq_iff_eq] at hkv
          obtain ⟨⟨hk1, hkdot⟩, hkal⟩ := hkv
          have hkq2 : k < q2.length := by
            by_contra hkge
            rw [List.getElem?_append_right (by omega)] at hkdot
            have hmem := List.getElem?_mem hkdot
            have := List.all_eq_true.mp hdot '.' hmem
            simp at this
          refine (emailSplit_ne_none _).mpr
            ⟨k, by simp only [List.length_append]; omega, ?_⟩
          simp only [validEmailDot, Bool.and_eq_true, decide_eq_true_eq,
            beq_iff_eq]
          rw [List.getElem?_append_left hkq2] at hkdot
          refine ⟨⟨hk1, by rw [List.getElem?_append_left hkq2]; exact hkdot⟩, ?_⟩
          rw [List.drop_append_of_le_length (by omega)] at hkal ⊢
          set q2x := q2.drop (k + 1) with hq2x
          by_cases hal : (q2x.takeWhile (fun c => c.isAlpha)).length < q2x.length
          · rwa [takeWhile_append_stop _ _ _ hal] at hkal ⊢
          · have halen : (q2x.takeWhile (fun c => c.isAlpha)).length
                = q2x.length := by
              have := takeWhile_le_length (fun c : Char => c.isAlpha) q2x
              omega
            rw [takeWhile_append_sat _ _ _ halen] at hkal ⊢
            rw [List.length_append] at hkal ⊢
            cases halt with
            | inl hempty =>
              rw [hempty] at hkal
              simp only [List.takeWhile_nil, List.length_nil] at hkal
              omega
            | inr hs2 =>
              omega
      exact emailHead_fire (q ++ d)
        (by rw [htwi]; exact h1)
        _
        (by rw [htwi, List.drop_append_of_le_length (by omega),
              List.drop_eq_getElem_cons hcase, List.cons_append, ← hat])
        h3' hm
    · -- q consists of local characters only; the run crosses into lit
      obtain ⟨cb, tb, hdw, hne, hlt⟩ := emailBlock_stop lit hB
      have hqlen : (q.takeWhile isLocalChar).length = q.length := by
        have := takeWhile_le_length isLocalChar q
        omega
      have htw : (q ++ (lit ++ rest)).takeWhile isLocalChar
          = q ++ (lit.takeWhile isLocalChar) := by
        rw [takeWhile_append_sat _ _ _ hqlen, takeWhile_append_stop _ _ _ hlt]
      rw [htw] at h2
      rw [List.length_append] at h2
      rw [List.drop_append] at h2
      rw [List.drop_append_of_le_length (by omega), drop_len_takeWhile, hdw,
        List.cons_append] at h2
      injection h2 with hcb _
      exact hne hcb

/-! ### Bearer matcher junction -/

theorem bearerTail_some_fwd (rest : List Char) (p : Nat × Nat)
    (h : bearerTail rest = some p) :
    p.1 = (rest.takeWhile isWS).length ∧ 1 ≤ p.1
    ∧ p.2 = ((rest.drop p.1).takeWhile (fun c => !isWS c)).length ∧ 1 ≤ p.2 := by
  simp only [bearerTail] at h
  split at h
  · cases h
  · rename_i hw
    split at h
    · cases h
    · rename_i ht
      injection h with h
      subst h
      simp only [beq_iff_eq] at hw ht
      exact ⟨rfl, by omega, rfl, by omega⟩

theorem bearerTail_fire (rest : List Char)
    (hw : 1 ≤ (rest.takeWhile isWS).length)
    (ht : 1 ≤ ((rest.drop (rest.takeWhile isWS).length).takeWhile
      (fun c => !isWS c)).length) :
    bearerTail rest = some ((rest.takeWhile isWS).length,
      ((rest.drop (rest.takeWhile isWS).length).takeWhile
        (fun c => !isWS c)).length) := by
  simp only [bearerTail]
  rw [if_neg (by simp only [beq_iff_eq]; omega),
    if_neg (by simp only [beq_iff_eq]; omega)]

theorem bearerHead_some_fwd (l : List Char) (n : Nat)
    (h : bearerHead l = some n) :
    litStarts ['B', 'e', 'a', 'r', 'e', 'r'] l = true
    ∧ ∃ p, bearerTail (l.drop 6) = some p ∧ n = 6 + p.1 + p.2 := by
  simp only [bearerHead] at h
  split at h
  · rename_i hls
    rw [Option.map_eq_some'] at h
    obtain ⟨p, hp, hn⟩ := h
    exact ⟨hls, p, hp, hn.symm⟩
  · cases h

theorem bearerHead_fire (l : List Char)
    (hls : litStarts ['B', 'e', 'a', 'r', 'e', 'r'] l = true)
    (p : Nat × Nat) (hp : bearerTail (l.drop 6) = some p) :
    bearerHead l = some (6 + p.1 + p.2) := by
  simp only [bearerHead, hls, if_true, hp, Option.map_some']

theorem bearerHead_pos (l : List Char) (n : Nat) (h : bearerHead l = some n) :
    1 ≤ n := by
  obtain ⟨-, p, -, hn⟩ := bearerHead_some_fwd l n h
  omega

theorem bearerHead_nws (l : List Char) (n : Nat) (h : bearerHead l = some n) :
    headNWS l := by
  obtain ⟨hls, -⟩ := bearerHead_some_fwd l n h
  obtain ⟨tl, rfl⟩ := (litStarts_iff _ _).mp hls
  exact ⟨'B', _, rfl, by decide⟩

theorem bearerHead_post (l : List Char) (n : Nat) (h : bearerHead l = some n) :
    headWSE (l.drop n) := by
  obtain ⟨-, p, hp, hn⟩ := bearerHead_some_fwd l n h
  obtain ⟨h1, -, h2, -⟩ := bearerTail_some_fwd _ p hp
  have heq : l.drop n = ((l.drop 6).drop p.1).drop p.2 := by
    rw [List.drop_drop, List.drop_drop, hn]
    congr 1
    omega
  rw [heq, h2, drop_len_takeWhile]
  exact dropWhile_nws_headWSE _

theorem bearerTokAt_some_fwd (l : List Char) (tok : List Char)
    (h : bearerTokAt l = some tok) :
    litStarts ['B', 'e', 'a', 'r', 'e', 'r'] l = true
    ∧ ∃ p, bearerTail (l.drop 6) = some p
        ∧ tok = ((l.drop 6).drop p.1).take p.2 := by
  simp only [bearerTokAt] at h
  split at h
  · rename_i hls
    rw [Option.map_eq_some'] at h
    obtain ⟨p, hp, hn⟩ := h
    exact ⟨hls, p, hp, hn.symm⟩
  · cases h

theorem bearerTokAt_none_of_head (l : List Char) (h : bearerHead l = none) :
    bearerTokAt l = none := by
  cases ht : bearerTokAt l with
  | none => rfl
  | some tok =>
    obtain ⟨hls, p, hp, -⟩ := bearerTokAt_some_fwd l tok ht
    rw [bearerHead_fire l hls p hp] at h
    cases h

theorem bearer_hself (l : List Char) (h : bearerHead l = none) :
    ∀ tok, bearerTokAt l = some tok → tok = bearerTokLit := by
  intro tok htok
  rw [bearerTokAt_none_of_head l h] at htok
  cases htok

theorem tokLit_nonws : (bearerTokLit.takeWhile (fun c => !isWS c)).length
    = bearerTokLit.length := by decide

theorem bearer_hlit (j : Nat) (out2 : List Char)
    (hq : ∀ tok, bearerTokAt out2 = some tok → tok = bearerTokLit)
    (hr : headWSE out2) :
    ∀ tok, bearerTokAt (bearerLit.drop j ++ out2) = some tok
      → tok = bearerTokLit := by
  by_cases hj0 : j = 0
  · subst hj0
    intro tok htok
    have hlit : bearerLit = ['B', 'e', 'a', 'r', 'e', 'r'] ++ (' ' ::
        bearerTokLit) := by decide
    have hout2 : out2.takeWhile (fun c => !isWS c) = [] := by
      cases hr with
      | inl he => rw [he]; rfl
      | inr hw =>
        obtain ⟨c, tl, rfl, hws⟩ := hw
        simp [List.takeWhile_cons, hws]
    have hdrop6 : (bearerLit.drop 0 ++ out2).drop 6
        = ' ' :: (bearerTokLit ++ out2) := by
      rw [List.drop_zero, hlit, List.append_assoc,
        List.drop_append_of_le_length (by decide), List.cons_append]
      rfl
    have htail : bearerTail ((bearerLit.drop 0 ++ out2).drop 6)
        = some (1, 16) := by
      rw [hdrop6]
      simp only [bearerTail, List.takeWhile_cons]
      rw [show isWS ' ' = true from by decide]
      simp only [if_true]
      have htk : (bearerTokLit ++ out2).takeWhile (fun c => !isWS c)
          = bearerTokLit := by
        rw [takeWhile_append_sat _ _ _ tokLit_nonws, hout2, List.append_nil]
      have hwlen : ((bearerTokLit ++ out2).takeWhile isWS) = [] := by
        rw [show bearerTokLit ++ out2 = '[' :: (bearerTokLit.drop 1 ++ out2)
          from rfl]
        simp +decide [List.takeWhile_cons]
      rw [hwlen]
      simp only [List.append_nil, List.length_cons, List.length_nil]
      rw [List.drop_one, List.tail_cons, htk]
      rfl
    obtain ⟨-, p, hp, hteq⟩ := bearerTokAt_some_fwd _ tok htok
    rw [htail] at hp
    injection hp with hp
    subst hp
    rw [hteq, hdrop6]
    rw [List.drop_one, List.tail_cons]
    rw [show (16 : Nat) = bearerTokLit.length from by decide]
    exact List.take_left bearerTokLit out2
  · intro tok htok
    obtain ⟨hls, -⟩ := bearerTokAt_some_fwd _ tok htok
    by_cases hj23 : 23 ≤ j
    · have hnil : bearerLit.drop j = [] := List.drop_eq_nil_of_le
        (by rw [show bearerLit.length = 23 from by decide]; omega)
      rw [hnil, List.nil_append] at htok
      exact hq tok htok
    · exfalso
      by_cases hj17 : j ≤ 17
      · rw [litStarts_append_of_le _ _ _ (by
          rw [List.length_drop, show bearerLit.length = 23 from by decide]
          simp only [List.length_cons, List.length_nil]
          omega)] at hls
        have := (by decide : ∀ j, j < 18 → 1 ≤ j →
          litStarts ['B', 'e', 'a', 'r', 'e', 'r'] (bearerLit.drop j) = false)
          j (by omega) (by omega)
        rw [this] at hls
        cases hls
      · have hd : ∃ c tl, bearerLit.drop j = c :: tl ∧ (c == 'B') = false := by
          interval_cases j
          · exact ⟨'C', ['T', 'E', 'D', ']'], by decide, by decide⟩
          · exact ⟨'T', ['E', 'D', ']'], by decide, by decide⟩
          · exact ⟨'E', ['D', ']'], by decide, by decide⟩
          · exact ⟨'D', [']'], by decide, by decide⟩
          · exact ⟨']', [], by decide, by decide⟩
        obtain ⟨c, tl, hdj, hcb⟩ := hd
        rw [hdj, List.cons_append, litStarts_cons_false _ _ _ _ hcb] at hls
        cases hls

theorem bearerJunction (q d rest : List Char)
    (hq1 : 1 ≤ q.length)
    (hm : bearerHead (q ++ d) = none)
    (hd : bearerHead d ≠ none) :
    ∀ tok, bearerTokAt (q ++ (bearerLit ++ rest)) = some tok
      → tok = bearerTokLit := by
  intro tok htok
  exfalso
  obtain ⟨hls, p, hp, -⟩ := bearerTokAt_some_fwd _ tok htok
  obtain ⟨nd, hnd⟩ := Option.ne_none_iff_exists'.mp hd
  obtain ⟨hlsd, pd, hpd, -⟩ := bearerHead_some_fwd d nd hnd
  obtain ⟨dtl, hdtl⟩ := (litStarts_iff _ _).mp hlsd
  by_cases h6 : 6 ≤ q.length
  · -- the Bearer keyword of the output match lies inside q
    have hlsq : litStarts ['B', 'e', 'a', 'r', 'e', 'r'] q = true := by
      rwa [litStarts_append_of_le _ _ _ (by simpa using h6)] at hls
    have hq6 : ∀ x : List Char, (q ++ x).drop 6 = q.drop 6 ++ x := by
      intro x
      rw [List.drop_append_of_le_length h6]
    have hwout : ∀ x : List Char, ∀ c tl, x = c :: tl → isWS c = false →
        (q.drop 6 ++ x).takeWhile isWS = (q.drop 6).takeWhile isWS := by
      intro x c tl hx hc
      apply takeWhile_append_head_false
      intro c2 tl2 hx2
      rw [hx] at hx2
      injection hx2 with h1 _
      rw [← h1]
      exact hc
    have hwo := hwout (bearerLit ++ rest) 'B' _ rfl (by decide)
    have hwi := hwout d 'B' (['e', 'a', 'r', 'e', 'r'] ++ dtl)
      (by rw [hdtl]; rfl) (by decide)
    obtain ⟨hp1, hp1pos, -, -⟩ := bearerTail_some_fwd _ p hp
    rw [hq6, hwo] at hp1
    set wq := (q.drop 6).takeWhile isWS with hwq
    have hwqle : wq.length ≤ (q.drop 6).length := takeWhile_le_length _ _
    have htokin : 1 ≤ (((q.drop 6 ++ d).drop wq.length).takeWhile
        (fun c => !isWS c)).length := by
      rw [List.drop_append_of_le_length hwqle]
      cases hdw : (q.drop 6).drop wq.length with
      | nil =>
        rw [List.nil_append, hdtl, List.cons_append]
        rw [(takeWhile_pos _ _)]
        exact ⟨'B', _, rfl, by decide⟩
      | cons c' t' =>
        rw [List.cons_append]
        rw [(takeWhile_pos _ _)]
        refine ⟨c', _, rfl, ?_⟩
        have hdweq : List.dropWhile isWS (q.drop 6) = c' :: t' := by
          rw [← drop_len_takeWhile, ← hwq]
          exact hdw
        have h0 := List.head?_dropWhile_not isWS (q.drop 6)
        rw [hdweq] at h0
        simpa using h0
    have hwin : 1 ≤ ((q.drop 6 ++ d).takeWhile isWS).length := by
      rw [hwi]; omega
    have hfire := bearerTail_fire (q.drop 6 ++ d) hwin (by
      rw [hwi]; exact htokin)
    have := bearerHead_fire (q ++ d) (by
      rwa [litStarts_append_of_le _ _ _ (by simpa using h6)]) _ (by
      rw [hq6]; exact hfire)
    rw [this] at hm
    cases hm
  · -- the keyword would straddle q and the literal: impossible
    rw [litStarts_split] at hls
    have h2 : litStarts (List.drop q.length ['B', 'e', 'a', 'r', 'e', 'r'])
        (bearerLit ++ rest) = false := by
      rw [litStarts_append_of_le _ _ _ (by
        rw [List.length_drop, show bearerLit.length = 23 from by decide]
        simp only [List.length_cons, List.length_nil]
        omega)]
      exact (by decide : ∀ j, j < 6 → 1 ≤ j →
        litStarts (List.drop j ['B', 'e', 'a', 'r', 'e', 'r']) bearerLit
          = false) q.length (by omega) (by omega)
    rw [h2, Bool.and_false] at hls
    cases hls

/-! ### api-token matcher basics -/

theorem take_len_takeWhile (p : Char → Bool) (l : List Char) :
    l.take (l.takeWhile p).length = l.takeWhile p := by
  obtain ⟨s, hs⟩ := (List.takeWhile_prefix p : l.takeWhile p <+: l)
  nth_rewrite 2 [← hs]
  exact List.take_left _ _

theorem ciStarts_cons_fwd (pc : Char) (ps l : List Char)
    (h : ciStarts (pc :: ps) l = true) :
    ∃ c tl, l = c :: tl ∧ c.toLower = pc ∧ ciStarts ps tl = true := by
  cases l with
  | nil => cases h
  | cons c tl =>
    simp only [ciStarts, Bool.and_eq_true, beq_iff_eq] at h
    exact ⟨c, tl, rfl, h.1, h.2⟩

theorem toLower_a_notsep (c : Char) (h : c.toLower = 'a') :
    isSepChar c = false := by
  rcases toLower_a_mem c h with rfl | rfl <;> decide

theorem notsep_nonws (c : Char) (h : isSepChar c = false) : isWS c = false := by
  simp only [isSepChar, Bool.or_eq_false_iff] at h
  exact h.2

theorem ws_ci_mismatch (cw pi : Char) (hws : isWS cw = true)
    (hpi : isWS pi = false) : (cw.toLower == pi) = false := by
  rw [isWS_toLower_self cw hws]
  cases hbe : cw == pi with
  | false => rfl
  | true =>
    rw [beq_iff_eq] at hbe
    rw [hbe] at hws
    rw [hws] at hpi
    cases hpi

theorem kvTail_some_fwd (rest : List Char) (p : Nat × Nat)
    (h : kvTail rest = some p) :
    1 ≤ (rest.takeWhile isSepChar).length
    ∧ 1 ≤ p.1 ∧ p.1 ≤ (rest.takeWhile isSepChar).length
    ∧ p.2 = ((rest.drop p.1).takeWhile (fun c => !isWS c)).length := by
  simp only [kvTail] at h
  split at h
  · cases h
  · rename_i ha
    simp only [beq_iff_eq] at ha
    split at h
    · injection h with h
      subst h
      exact ⟨by omega, by omega, le_refl _, rfl⟩
    · split at h
      · rename_i i hi
        injection h with h
        subst h
        have hmem := List.mem_of_mem_getLast? hi
        rw [List.mem_filter, List.mem_range] at hmem
        obtain ⟨hilt, hiv⟩ := hmem
        simp only [Bool.and_eq_true, decide_eq_true_eq] at hiv
        exact ⟨by omega, by simp only; omega, by simp only; omega, rfl⟩
      · cases h

theorem kvTail_fire_normal (rest : List Char)
    (ha : 1 ≤ (rest.takeWhile isSepChar).length)
    (hv : 1 ≤ ((rest.drop (rest.takeWhile isSepChar).length).takeWhile
      (fun c => !isWS c)).length) :
    kvTail rest = some ((rest.takeWhile isSepChar).length,
      ((rest.drop (rest.takeWhile isSepChar).length).takeWhile
        (fun c => !isWS c)).length) := by
  simp only [kvTail]
  rw [if_neg (by simp only [beq_iff_eq]; omega),
    if_pos (by simp only [bne_iff_ne, Ne]; omega)]

theorem apiPre_fwd (cs rest : List Char) (pl : Nat)
    (h : apiPre cs = some (rest, pl)) :
    ciStarts ['a', 'p', 'i'] cs = true ∧ rest = cs.drop pl
    ∧ ((pl = 8 ∧ ciStarts ['t', 'o', 'k', 'e', 'n'] (cs.drop 3) = true)
      ∨ (pl = 9 ∧ (∃ c, cs.drop 3 = c :: cs.drop 4
          ∧ (c == '_' || c == '-') = true)
        ∧ ciStarts ['t', 'o', 'k', 'e', 'n'] (cs.drop 4) = true)) := by
  simp only [apiPre] at h
  split at h
  · rename_i hci
    cases hd3 : cs.drop 3 with
    | nil =>
      rw [hd3] at h
      simp only at h
      split at h
      · rename_i htk
        injection h with h
        injection h with h1 h2
        refine ⟨hci, ?_, Or.inl ⟨by omega, htk⟩⟩
        rw [← h1, ← hd3, List.drop_drop, ← h2]
      · cases h
    | cons c tl =>
      have htl : tl = cs.drop 4 := by
        have h4 : cs.drop 4 = (cs.drop 3).drop 1 := by rw [List.drop_drop]
        rw [h4, hd3, List.drop_one, List.tail_cons]
      rw [hd3] at h
      simp only at h
      by_cases hsep : ((c == '_' || c == '-')
          && ciStarts ['t', 'o', 'k', 'e', 'n'] tl) = true
      · rw [if_pos hsep] at h
        simp only at h
        split at h
        · rename_i htk
          injection h with h
          injection h with h1 h2
          rw [Bool.and_eq_true] at hsep
          refine ⟨hci, ?_, Or.inr ⟨by omega,
            ⟨c, by rw [← htl], hsep.1⟩,
            by rw [← htl]; exact hsep.2⟩⟩
          rw [← h1, htl, List.drop_drop, ← h2]
        · cases h
      · rw [if_neg hsep] at h
        simp only at h
        split at h
        · rename_i htk
          injection h with h
          injection h with h1 h2
          refine ⟨hci, ?_, Or.inl ⟨by omega, htk⟩⟩
          rw [← h1, ← hd3, List.drop_drop, ← h2]
        · cases h
  · cases h

theorem apiPre_fire9 (cs : List Char) (c : Char)
    (h1 : ciStarts ['a', 'p', 'i'] cs = true)
    (hd3 : cs.drop 3 = c :: cs.drop 4)
    (h2 : (c == '_' || c == '-') = true)
    (h3 : ciStarts ['t', 'o', 'k', 'e', 'n'] (cs.drop 4) = true) :
    apiPre cs = some (cs.drop 9, 9) := by
  simp only [apiPre, h1, if_true]
  rw [hd3]
  dsimp only
  have hcond : ((c == '_' || c == '-')
      && ciStarts ['t', 'o', 'k', 'e', 'n'] (cs.drop 4)) = true := by
    rw [h2, h3]
    rfl
  rw [if_pos hcond]
  dsimp only
  rw [if_pos h3, List.drop_drop]

theorem apiPre_fire8 (cs : List Char)
    (h1 : ciStarts ['a', 'p', 'i'] cs = true)
    (h2 : ciStarts ['t', 'o', 'k', 'e', 'n'] (cs.drop 3) = true) :
    apiPre cs = some (cs.drop 8, 8) := by
  simp only [apiPre, h1, if_true]
  cases hd3 : cs.drop 3 with
  | nil =>
    rw [hd3] at h2
    cases h2
  | cons c tl =>
    rw [hd3] at h2
    obtain ⟨c2, tl2, heq, hcl, -⟩ := ciStarts_cons_fwd _ _ _ h2
    injection heq with he1 he2
    have hnot : ((c == '_' || c == '-')
        && ciStarts ['t', 'o', 'k', 'e', 'n'] tl) = false := by
      rcases toLower_t_mem c (by rw [he1]; exact hcl) with rfl | rfl <;> rfl
    dsimp only
    rw [if_neg (show ¬((c == '_' || c == '-')
      && ciStarts ['t', 'o', 'k', 'e', 'n'] tl) = true from by
        rw [hnot]; exact Bool.false_ne_true)]
    dsimp only
    rw [if_pos h2, ← hd3, List.drop_drop]

theorem apiHead_some_fwd (cs : List Char) (n : Nat) (h : apiHead cs = some n) :
    ∃ rest pl p, apiPre cs = some (rest, pl) ∧ kvTail rest = some p
      ∧ n = pl + p.1 + p.2 := by
  simp only [apiHead] at h
  split at h
  · rename_i rest pl hpre
    rw [Option.map_eq_some'] at h
    obtain ⟨p, hp, hn⟩ := h
    exact ⟨rest, pl, p, hpre, hp, hn.symm⟩
  · cases h

theorem apiHead_fire (cs rest : List Char) (pl : Nat) (p : Nat × Nat)
    (hpre : apiPre cs = some (rest, pl)) (hp : kvTail rest = some p) :
    apiHead cs = some (pl + p.1 + p.2) := by
  simp only [apiHead, hpre, hp, Option.map_some']

theorem apiHead_pos (cs : List Char) (n : Nat) (h : apiHead cs = some n) :
    1 ≤ n := by
  obtain ⟨rest, pl, p, hpre, hp, hn⟩ := apiHead_some_fwd cs n h
  obtain ⟨-, -, hcase⟩ := apiPre_fwd _ _ _ hpre
  rcases hcase with ⟨h8, -⟩ | ⟨h9, -⟩ <;> omega

theorem apiHead_nws2 (cs : List Char) (n : Nat) (h : apiHead cs = some n) :
    headNWS cs := by
  obtain ⟨rest, pl, p, hpre, -, -⟩ := apiHead_some_fwd cs n h
  obtain ⟨hci, -, -⟩ := apiPre_fwd _ _ _ hpre
  obtain ⟨c, tl, rfl, hcl, -⟩ := ciStarts_cons_fwd _ _ _ hci
  exact ⟨c, tl, rfl, toLower_a_nws c hcl⟩

theorem apiHead_post (cs : List Char) (n : Nat) (h : apiHead cs = some n) :
    headWSE (cs.drop n) := by
  obtain ⟨rest, pl, p, hpre, hp, hn⟩ := apiHead_some_fwd cs n h
  obtain ⟨-, hrest, -⟩ := apiPre_fwd _ _ _ hpre
  obtain ⟨-, -, -, hp2⟩ := kvTail_some_fwd _ p hp
  have heq : cs.drop n = ((cs.drop pl).drop p.1).drop p.2 := by
    rw [List.drop_drop, List.drop_drop, hn]
    congr 1
    omega
  rw [heq, ← hrest, hp2, drop_len_takeWhile]
  exact dropWhile_nws_headWSE _

theorem apiValAt_some_fwd (cs v : List Char) (h : apiValAt cs = some v) :
    ∃ rest pl p, apiPre cs = some (rest, pl) ∧ kvTail rest = some p
      ∧ v = (rest.drop p.1).take p.2 := by
  simp only [apiValAt] at h
  split at h
  · rename_i rest pl hpre
    rw [Option.map_eq_some'] at h
    obtain ⟨p, hp, hn⟩ := h
    exact ⟨rest, pl, p, hpre, hp, hn.symm⟩
  · cases h

theorem apiValAt_fire (cs rest : List Char) (pl : Nat) (p : Nat × Nat)
    (hpre : apiPre cs = some (rest, pl)) (hp : kvTail rest = some p) :
    apiValAt cs = some ((rest.drop p.1).take p.2) := by
  simp only [apiValAt, hpre, hp, Option.map_some']

theorem apiValAt_none_of_noapi (cs : List Char)
    (h : ciStarts ['a', 'p', 'i'] cs = false) : apiValAt cs = none := by
  simp [apiValAt, apiPre, h]

theorem apiPre_congr (q x y rest : List Char) (pl : Nat)
    (hle : pl ≤ q.length)
    (h : apiPre (q ++ x) = some (rest, pl)) :
    apiPre (q ++ y) = some ((q ++ y).drop pl, pl) := by
  obtain ⟨h1, -, hcase⟩ := apiPre_fwd _ _ _ h
  have hq3 : ∀ z : List Char, (q ++ z).drop 3 = q.drop 3 ++ z := by
    intro z
    cases hcase with
    | inl h8 => exact List.drop_append_of_le_length (by omega)
    | inr h9 => exact List.drop_append_of_le_length (by omega)
  have hq4 : ∀ z : List Char, (q ++ z).drop 4 = q.drop 4 ++ z := by
    intro z
    cases hcase with
    | inl h8 => exact List.drop_append_of_le_length (by omega)
    | inr h9 => exact List.drop_append_of_le_length (by omega)
  have h1y : ciStarts ['a', 'p', 'i'] (q ++ y) = true := by
    have hlen : (['a', 'p', 'i'] : List Char).length ≤ q.length := by
      simp only [List.length_cons, List.length_nil]
      rcases hcase with ⟨h8, -⟩ | ⟨h9, -⟩ <;> omega
    rw [ciStarts_append_of_le _ _ _ hlen] at h1 ⊢
    · exact h1
  cases hcase with
  | inl h8 =>
    obtain ⟨rfl, h2⟩ := h8
    have htoklen : (['t', 'o', 'k', 'e', 'n'] : List Char).length
        ≤ (q.drop 3).length := by
      simp only [List.length_cons, List.length_nil, List.length_drop]
      omega
    rw [hq3] at h2
    rw [ciStarts_append_of_le _ _ _ htoklen] at h2
    exact apiPre_fire8 (q ++ y) h1y
      (by rw [hq3, ciStarts_append_of_le _ _ _ htoklen]; exact h2)
  | inr h9 =>
    obtain ⟨rfl, ⟨c, hd3, hcsep⟩, h3⟩ := h9
    have h3lt : 3 < q.length := by omega
    have hc : c = q[3] := by
      rw [hq3, List.drop_eq_getElem_cons h3lt, List.cons_append] at hd3
      injection hd3 with hh _
      exact hh.symm
    have htoklen : (['t', 'o', 'k', 'e', 'n'] : List Char).length
        ≤ (q.drop 4).length := by
      simp only [List.length_cons, List.length_nil, List.length_drop]
      omega
    rw [hq4] at h3
    rw [ciStarts_append_of_le _ _ _ htoklen] at h3
    exact apiPre_fire9 (q ++ y) c h1y
      (by rw [hq3, hq4, hc, List.drop_eq_getElem_cons h3lt, List.cons_append])
      hcsep
      (by rw [hq4, ciStarts_append_of_le _ _ _ htoklen]; exact h3)

/-! ### api-token literal and junction lemmas -/

theorem bearerTok_cons_ne_B (c : Char) (tl : List Char)
    (hc : (c == 'B') = false) : bearerTokAt (c :: tl) = none := by
  simp [bearerTokAt, litStarts, hc]

theorem bearerTokAt_fire (l : List Char)
    (hls : litStarts ['B', 'e', 'a', 'r', 'e', 'r'] l = true)
    (p : Nat × Nat) (hp : bearerTail (l.drop 6) = some p) :
    bearerTokAt l = some (((l.drop 6).drop p.1).take p.2) := by
  simp only [bearerTokAt, hls, if_true, hp, Option.map_some']

theorem bearerApi_hlit (j : Nat) (out2 : List Char)
    (hq : ∀ tok, bearerTokAt out2 = some tok → tok = bearerTokLit) :
    ∀ tok, bearerTokAt (apiLit.drop j ++ out2) = some tok
      → tok = bearerTokLit := by
  intro tok htok
  cases hd : apiLit.drop j with
  | nil =>
    rw [hd, List.nil_append] at htok
    exact hq tok htok
  | cons c tl =>
    rw [hd, List.cons_append] at htok
    have hc : c ∈ apiLit :=
      List.mem_of_mem_drop (by rw [hd]; exact List.mem_cons_self c tl)
    have hnb := List.all_eq_true.mp
      (by decide : apiLit.all (fun c => !(c == 'B')) = true) c hc
    rw [bearerTok_cons_ne_B c _ (by simpa using hnb)] at htok
    cases htok

theorem api_straddle (q rest : List Char) (h1 : 1 ≤ q.length)
    (h2 : q.length ≤ 2)
    (hci : ciStarts ['a', 'p', 'i'] (q ++ (apiLit ++ rest)) = true) :
    False := by
  rw [ciStarts_split] at hci
  have hx : ciStarts (List.drop q.length ['a', 'p', 'i'])
      (apiLit ++ rest) = false := by
    rw [ciStarts_append_of_le _ _ _ (by
      simp only [List.length_drop, List.length_cons, List.length_nil]
      rw [show apiLit.length = 21 from by decide]
      omega)]
    exact (by decide : ∀ j, j < 3 → 1 ≤ j →
      ciStarts (List.drop j ['a', 'p', 'i']) apiLit = false)
      q.length (by omega) h1
  rw [hx, Bool.and_false] at hci
  cases hci

theorem api_hlit (j : Nat) (out2 : List Char)
    (hq : ∀ v, apiValAt out2 = some v → v = apiValLit)
    (hr : headWSE out2) :
    ∀ v, apiValAt (apiLit.drop j ++ out2) = some v → v = apiValLit := by
  by_cases hj0 : j = 0
  · subst hj0
    rw [List.drop_zero]
    intro v hv
    have hA3 : (apiLit ++ out2).drop 3 = apiLit.drop 3 ++ out2 :=
      List.drop_append_of_le_length (by decide)
    have hA4 : (apiLit ++ out2).drop 4 = apiLit.drop 4 ++ out2 :=
      List.drop_append_of_le_length (by decide)
    have hA9 : (apiLit ++ out2).drop 9 = apiLit.drop 9 ++ out2 :=
      List.drop_append_of_le_length (by decide)
    have h1 : ciStarts ['a', 'p', 'i'] (apiLit ++ out2) = true := by
      rw [ciStarts_append_of_le _ _ _ (by decide)]
      decide
    have hd3 : (apiLit ++ out2).drop 3 = '_' :: (apiLit ++ out2).drop 4 := by
      rw [hA3, hA4, show apiLit.drop 3 = '_' :: apiLit.drop 4 from by decide,
        List.cons_append]
    have h3 : ciStarts ['t', 'o', 'k', 'e', 'n'] ((apiLit ++ out2).drop 4)
        = true := by
      rw [hA4, ciStarts_append_of_le _ _ _ (by decide)]
      decide
    have hpre := apiPre_fire9 (apiLit ++ out2) '_' h1 hd3 (by decide) h3
    have hdrop9 : (apiLit ++ out2).drop 9
        = ':' :: (' ' :: (apiValLit ++ out2)) := by
      rw [hA9, show apiLit.drop 9 = ':' :: (' ' :: apiValLit) from by decide]
      rfl
    have hvout2 : out2.takeWhile (fun c => !isWS c) = [] := by
      cases hr with
      | inl he => rw [he]; rfl
      | inr hw =>
        obtain ⟨c, tl, rfl, hws⟩ := hw
        simp [List.takeWhile_cons, hws]
    have hva : (apiValLit ++ out2).takeWhile (fun c => !isWS c)
        = apiValLit := by
      rw [takeWhile_append_sat _ _ _ (by decide), hvout2, List.append_nil]
    have ha : (':' :: (' ' :: (apiValLit ++ out2))).takeWhile isSepChar
        = [':', ' '] := by
      rw [show apiValLit ++ out2 = '[' :: (apiValLit.drop 1 ++ out2)
        from rfl]
      simp +decide [List.takeWhile_cons]
    have hkv : kvTail ((apiLit ++ out2).drop 9) = some (2, 10) := by
      rw [hdrop9]
      simp only [kvTail]
      rw [ha]
      rw [if_neg (by decide)]
      rw [show (':' :: (' ' :: (apiValLit ++ out2))).drop
        (([':', ' '] : List Char).length) = apiValLit ++ out2 from rfl]
      rw [hva]
      rw [if_pos (by decide)]
      rfl
    rw [apiValAt_fire _ _ _ _ hpre hkv] at hv
    injection hv with hv
    rw [← hv, hdrop9]
    dsimp only
    rw [show (':' :: (' ' :: (apiValLit ++ out2))).drop 2
      = apiValLit ++ out2 from rfl]
    rw [show (10 : Nat) = apiValLit.length from by decide]
    exact List.take_left apiValLit out2
  · intro v hv
    cases hd : apiLit.drop j with
    | nil =>
      rw [hd, List.nil_append] at hv
      exact hq v hv
    | cons c tl =>
      exfalso
      have hjlt : j < 21 := by
        by_contra hge
        rw [List.drop_eq_nil_of_le (by
          rw [show apiLit.length = 21 from by decide]; omega)] at hd
        cases hd
      have hci : ciStarts ['a', 'p', 'i'] (apiLit.drop j ++ out2) = false := by
        by_cases hj18 : j ≤ 18
        · rw [ciStarts_append_of_le _ _ _ (by
            simp only [List.length_drop, List.length_cons, List.length_nil]
            rw [show apiLit.length = 21 from by decide]
            omega)]
          exact (by decide : ∀ j, j < 19 → 1 ≤ j →
            ciStarts ['a', 'p', 'i'] (apiLit.drop j) = false) j (by omega)
            (by omega)
        · have h1920 : j = 19 ∨ j = 20 := by omega
          rcases h1920 with rfl | rfl
          · rw [show apiLit.drop 19 = ['D', ']'] from by decide,
              List.cons_append]
            exact ciStarts_cons_false _ _ _ _ (by decide)
          · rw [show apiLit.drop 20 = [']'] from by decide, List.cons_append]
            exact ciStarts_cons_false _ _ _ _ (by decide)
      rw [apiValAt_none_of_noapi _ hci] at hv
      cases hv

theorem apiJunction (q d rest : List Char)
    (hq1 : 1 ≤ q.length)
    (hm : apiHead (q ++ d) = none)
    (hd : apiHead d ≠ none) :
    ∀ v, apiValAt (q ++ (apiLit ++ rest)) = some v → v = apiValLit := by
  intro v hv
  exfalso
  obtain ⟨rest0, pl, p, hpre, hkv, -⟩ := apiValAt_some_fwd _ _ hv
  obtain ⟨hci, hrest0, hcase⟩ := apiPre_fwd _ _ _ hpre
  obtain ⟨nd, hnd⟩ := Option.ne_none_iff_exists'.mp hd
  obtain ⟨restd, pld, pd, hpred, hkvd, -⟩ := apiHead_some_fwd d nd hnd
  obtain ⟨hcid, -, -⟩ := apiPre_fwd _ _ _ hpred
  obtain ⟨c1, dtl, hdeq, hc1, -⟩ := ciStarts_cons_fwd _ _ _ hcid
  by_cases hple : pl ≤ q.length
  · -- prefix inside q: the input fires and hm is contradicted
    have hprein : apiPre (q ++ d) = some ((q ++ d).drop pl, pl) :=
      apiPre_congr q (apiLit ++ rest) d rest0 pl hple hpre
    have hqp : ∀ z : List Char, (q ++ z).drop pl = q.drop pl ++ z :=
      fun z => List.drop_append_of_le_length hple
    have hsa : (q.drop pl ++ (apiLit ++ rest)).takeWhile isSepChar
        = (q.drop pl).takeWhile isSepChar :=
      takeWhile_append_head_false _ _ _ (by
        intro c0 tl0 h0
        rw [show apiLit ++ rest = 'a' :: (apiLit.drop 1 ++ rest)
          from rfl] at h0
        injection h0 with h01 _
        rw [← h01]
        decide)
    have hsd : (q.drop pl ++ d).takeWhile isSepChar
        = (q.drop pl).takeWhile isSepChar :=
      takeWhile_append_head_false _ _ _ (by
        intro c0 tl0 h0
        rw [hdeq] at h0
        injection h0 with h01 _
        rw [← h01]
        exact toLower_a_notsep c1 hc1)
    obtain ⟨hkv1, -, -, -⟩ := kvTail_some_fwd _ p hkv
    rw [hrest0, hqp, hsa] at hkv1
    have haqle : ((q.drop pl).takeWhile isSepChar).length
        ≤ (q.drop pl).length := takeWhile_le_length _ _
    have hvin : 1 ≤ (((q.drop pl).drop
        ((q.drop pl).takeWhile isSepChar).length ++ d).takeWhile
        (fun c => !isWS c)).length := by
      cases hqq : (q.drop pl).drop ((q.drop pl).takeWhile isSepChar).length
        with
      | nil =>
        rw [List.nil_append, hdeq, takeWhile_pos _ _]
        exact ⟨c1, dtl, rfl, by rw [toLower_a_nws c1 hc1]; rfl⟩
      | cons c' t' =>
        rw [List.cons_append, takeWhile_pos _ _]
        refine ⟨c', _, rfl, ?_⟩
        have hdweq : (q.drop pl).dropWhile isSepChar = c' :: t' := by
          rw [← drop_len_takeWhile]
          exact hqq
        have h0 := List.head?_dropWhile_not isSepChar (q.drop pl)
        rw [hdweq] at h0
        simp only [List.head?_cons] at h0
        simpa using notsep_nonws c' h0
    have hkvin := kvTail_fire_normal (q.drop pl ++ d) (by rw [hsd]; omega)
      (by
        rw [hsd, List.drop_append_of_le_length haqle]
        exact hvin)
    have hfire := apiHead_fire (q ++ d) ((q ++ d).drop pl) pl _ hprein
      (by rw [hqp d]; exact hkvin)
    rw [hfire] at hm
    cases hm
  · -- the prefix would straddle the boundary: impossible
    rcases hcase with ⟨hpl8, htok⟩ | ⟨hpl9, ⟨cx, hd3x, hsepx⟩, htok9⟩
    · by_cases hq2 : q.length ≤ 2
      · exact api_straddle q rest hq1 hq2 hci
      · have h3q : (q ++ (apiLit ++ rest)).drop 3
            = q.drop 3 ++ (apiLit ++ rest) :=
          List.drop_append_of_le_length (by omega)
        rw [h3q, ciStarts_split] at htok
        have hx : ciStarts (List.drop (q.drop 3).length
            ['t', 'o', 'k', 'e', 'n']) (apiLit ++ rest) = false := by
          rw [ciStarts_append_of_le _ _ _ (by
            simp only [List.length_drop, List.length_cons, List.length_nil]
            rw [show apiLit.length = 21 from by decide]
            omega)]
          exact (by decide : ∀ j, j < 5 →
            ciStarts (List.drop j ['t', 'o', 'k', 'e', 'n']) apiLit = false)
            (q.drop 3).length (by
              simp only [List.length_drop]
              omega)
        rw [hx, Bool.and_false] at htok
        cases htok
    · by_cases hq2 : q.length ≤ 2
      · exact api_straddle q rest hq1 hq2 hci
      · by_cases hq3 : q.length = 3
        · have hq30 : q.drop 3 = [] := List.drop_eq_nil_of_le (by omega)
          rw [List.drop_append_of_le_length (by omega), hq30,
            List.nil_append,
            show apiLit ++ rest = 'a' :: (apiLit.drop 1 ++ rest)
              from rfl] at hd3x
          injection hd3x with hcx _
          rw [← hcx] at hsepx
          exact absurd hsepx (by decide)
        · have h4q : (q ++ (apiLit ++ rest)).drop 4
              = q.drop 4 ++ (apiLit ++ rest) :=
            List.drop_append_of_le_length (by omega)
          rw [h4q, ciStarts_split] at htok9
          have hx : ciStarts (List.drop (q.drop 4).length
              ['t', 'o', 'k', 'e', 'n']) (apiLit ++ rest) = false := by
            rw [ciStarts_append_of_le _ _ _ (by
              simp only [List.length_drop, List.length_cons, List.length_nil]
              rw [show apiLit.length = 21 from by decide]
              omega)]
            exact (by decide : ∀ j, j < 5 →
              ciStarts (List.drop j ['t', 'o', 'k', 'e', 'n']) apiLit = false)
              (q.drop 4).length (by
                simp only [List.length_drop]
                omega)
          rw [hx, Bool.and_false] at htok9
          cases htok9

theorem toklit_split (q6p s : List Char) (h : q6p ++ s = bearerTokLit) :
    s = bearerTokLit.drop q6p.length := by
  rw [← h, List.drop_left]

theorem bearerApiJunction (q d rest : List Char)
    (hq1 : 1 ≤ q.length)
    (hd : apiHead d ≠ none)
    (hin0 : ∀ tok, bearerTokAt (q ++ d) = some tok → tok = bearerTokLit) :
    ∀ tok, bearerTokAt (q ++ (apiLit ++ rest)) = some tok
      → tok = bearerTokLit := by
  intro tok htok
  obtain ⟨hls, p, hp, htokeq⟩ := bearerTokAt_some_fwd _ tok htok
  obtain ⟨nd, hnd⟩ := Option.ne_none_iff_exists'.mp hd
  obtain ⟨restd, pld, pd, hpred, -, -⟩ := apiHead_some_fwd d nd hnd
  obtain ⟨hcid, -, -⟩ := apiPre_fwd _ _ _ hpred
  obtain ⟨c1, dtl, hdeq, hc1, -⟩ := ciStarts_cons_fwd _ _ _ hcid
  by_cases h6 : 6 ≤ q.length
  · -- keyword inside q
    have hlsq : litStarts ['B', 'e', 'a', 'r', 'e', 'r'] q = true := by
      rwa [litStarts_append_of_le _ _ _ (by simpa using h6)] at hls
    have hq6 : ∀ z : List Char, (q ++ z).drop 6 = q.drop 6 ++ z :=
      fun z => List.drop_append_of_le_length h6
    have hwA : (q.drop 6 ++ (apiLit ++ rest)).takeWhile isWS
        = (q.drop 6).takeWhile isWS :=
      takeWhile_append_head_false _ _ _ (by
        intro c0 tl0 h0
        rw [show apiLit ++ rest = 'a' :: (apiLit.drop 1 ++ rest)
          from rfl] at h0
        injection h0 with h01 _
        rw [← h01]
        decide)
    have hwd : (q.drop 6 ++ d).takeWhile isWS = (q.drop 6).takeWhile isWS :=
      takeWhile_append_head_false _ _ _ (by
        intro c0 tl0 h0
        rw [hdeq] at h0
        injection h0 with h01 _
        rw [← h01]
        exact toLower_a_nws c1 hc1)
    obtain ⟨hp1, hp1pos, hp2, -⟩ := bearerTail_some_fwd _ p hp
    rw [hq6, hwA] at hp1
    have hwqle : ((q.drop 6).takeWhile isWS).length ≤ (q.drop 6).length :=
      takeWhile_le_length _ _
    rw [hq6, hp1, List.drop_append_of_le_length hwqle] at hp2
    rw [hq6, hp1, List.drop_append_of_le_length hwqle] at htokeq
    set q6p := (q.drop 6).drop ((q.drop 6).takeWhile isWS).length with hq6p
    rw [hp2, take_len_takeWhile] at htokeq
    -- the input also fires
    have hvin : 1 ≤ ((q6p ++ d).takeWhile (fun c => !isWS c)).length := by
      cases hqq : q6p with
      | nil =>
        rw [List.nil_append, hdeq, takeWhile_pos _ _]
        exact ⟨c1, dtl, rfl, by rw [toLower_a_nws c1 hc1]; rfl⟩
      | cons c' t' =>
        rw [List.cons_append, takeWhile_pos _ _]
        refine ⟨c', _, rfl, ?_⟩
        have hdweq : (q.drop 6).dropWhile isWS = c' :: t' := by
          rw [← drop_len_takeWhile, ← hq6p]
          exact hqq
        have h0 := List.head?_dropWhile_not isWS (q.drop 6)
        rw [hdweq] at h0
        simp only [List.head?_cons] at h0
        simpa using h0
    have hfire := bearerTail_fire (q.drop 6 ++ d) (by rw [hwd]; omega)
      (by
        rw [hwd, List.drop_append_of_le_length hwqle, ← hq6p]
        exact hvin)
    have htin := bearerTokAt_fire (q ++ d) (by
      rwa [litStarts_append_of_le _ _ _ (by simpa using h6)]) _ (by
      rw [hq6 d]
      exact hfire)
    rw [hq6 d, hwd, List.drop_append_of_le_length hwqle, ← hq6p,
      take_len_takeWhile] at htin
    have hTOK := hin0 _ htin
    -- compare the two token runs
    by_cases hnn : (q6p.takeWhile (fun c => !isWS c)).length < q6p.length
    · rw [takeWhile_append_stop _ _ _ hnn] at htokeq
      rw [takeWhile_append_stop _ _ _ hnn] at hTOK
      rw [htokeq, hTOK]
    · exfalso
      have hnlen : (q6p.takeWhile (fun c => !isWS c)).length = q6p.length := by
        have := takeWhile_le_length (fun c => !isWS c) q6p
        omega
      rw [takeWhile_append_sat _ _ _ hnlen] at hTOK
      set s := d.takeWhile (fun c => !isWS c) with hs
      have hsd : s = bearerTokLit.drop q6p.length := toklit_split _ _ hTOK
      have hslen : 1 ≤ s.length := by
        rw [hs, hdeq, List.takeWhile_cons,
          show (!isWS c1) = true from by rw [toLower_a_nws c1 hc1]; rfl]
        simp
      have hlens : q6p.length + s.length = 16 := by
        have := congrArg List.length hTOK
        rw [List.length_append] at this
        rw [this]
        decide
      have hdsplit : d = s ++ d.dropWhile (fun c => !isWS c) := by
        rw [hs, List.takeWhile_append_dropWhile]
      cases hqq : q6p with
      | nil =>
        rw [hqq] at hsd
        rw [List.length_nil, List.drop_zero] at hsd
        rw [hdsplit, hsd] at hcid
        rw [show bearerTokLit ++ d.dropWhile (fun c => !isWS c)
          = '[' :: (bearerTokLit.drop 1 ++ d.dropWhile (fun c => !isWS c))
          from rfl] at hcid
        rw [ciStarts_cons_false _ _ _ _ (by decide)] at hcid
        cases hcid
      | cons cq tq =>
        rw [hdsplit] at hcid
        by_cases hm13 : q6p.length ≤ 13
        · rw [ciStarts_append_of_le _ _ _ (by
            rw [hsd, List.length_drop,
              show bearerTokLit.length = 16 from by decide]
            simp only [List.length_cons, List.length_nil]
            omega)] at hcid
          rw [hsd] at hcid
          have hq1m : 1 ≤ q6p.length := by rw [hqq]; simp
          rw [(by decide : ∀ m, m < 14 →
            ciStarts ['a', 'p', 'i'] (bearerTokLit.drop m) = false)
            q6p.length (by omega)] at hcid
          cases hcid
        · have h1415 : q6p.length = 14 ∨ q6p.length = 15 := by omega
          rcases h1415 with hq14 | hq15
          · rw [hsd, hq14,
              show bearerTokLit.drop 14 = ['D', ']'] from by decide,
              List.cons_append,
              ciStarts_cons_false _ _ _ _ (by decide)] at hcid
            cases hcid
          · rw [hsd, hq15,
              show bearerTokLit.drop 15 = [']'] from by decide,
              List.cons_append,
              ciStarts_cons_false _ _ _ _ (by decide)] at hcid
            cases hcid
  · -- keyword would straddle q and the literal: impossible
    exfalso
    rw [litStarts_split] at hls
    have hx : litStarts (List.drop q.length ['B', 'e', 'a', 'r', 'e', 'r'])
        (apiLit ++ rest) = false := by
      rw [litStarts_append_of_le _ _ _ (by
        simp only [List.length_drop, List.length_cons, List.length_nil]
        rw [show apiLit.length = 21 from by decide]
        omega)]
      exact (by decide : ∀ j, j < 6 → 1 ≤ j →
        litStarts (List.drop j ['B', 'e', 'a', 'r', 'e', 'r']) apiLit
          = false) q.length (by omega) hq1
    rw [hx, Bool.and_false] at hls
    cases hls

/-! ### Instantiating the pass skeletons: the four passes establish and preserve the redaction properties -/

theorem emailHead_pos (l : List Char) (n : Nat) (h : emailHead l = some n) :
    1 ≤ n := by
  simp only [emailHead] at h
  split at h
  · cases h
  · split at h
    · split at h
      · injection h with h
        omega
      · cases h
    · cases h

theorem api_hself (l : List Char) (h : apiHead l = none) :
    ∀ v, apiValAt l = some v → v = apiValLit := by
  intro v hv
  obtain ⟨rest, pl, p, hpre, hkv, -⟩ := apiValAt_some_fwd _ _ hv
  rw [apiHead_fire _ _ _ _ hpre hkv] at h
  cases h

theorem two_alpha_dom (c1 c2 : Char) (tl : List Char)
    (h1a : c1.isAlpha = true) (h2a : c2.isAlpha = true) :
    2 ≤ (((c1 :: c2 :: tl).takeWhile isDomChar).takeWhile
      (fun c => c.isAlpha)).length := by
  have h1d : isDomChar c1 = true := by simp [isDomChar, h1a]
  have h2d : isDomChar c2 = true := by simp [isDomChar, h2a]
  have hin : (c1 :: c2 :: tl).takeWhile isDomChar
      = c1 :: c2 :: tl.takeWhile isDomChar := by
    rw [List.takeWhile_cons, h1d, if_pos rfl, List.takeWhile_cons, h2d,
      if_pos rfl]
  rw [hin, takeWhile_two]
  exact ⟨c1, c2, _, rfl, h1a, h2a⟩

theorem urlPass_sound (cs : List Char) :
    ∀ i, urlHead ((replRun urlHead urlLit cs).drop i) = none := by
  refine replRun_sound urlHead urlLit (fun l => urlHead l = none)
    (fun _ => True) rfl urlHead_pos (fun _ _ _ => trivial)
    (fun _ _ _ => trivial) (fun _ h => h) ?_ ?_ cs
  · intro j out2 hq _
    exact urlHead_litdrop urlLit (by decide) j out2 (by simpa using hq 0)
  · intro c P d rest hm hd _ _
    obtain ⟨n, hn⟩ := Option.ne_none_iff_exists'.mp hd
    exact urlJunction (c :: P) d rest urlLit hm (urlHead_nws d n hn)
      '[' (urlLit.drop 1) rfl (by decide)

theorem urlFree_email_pres (cs : List Char)
    (hin : ∀ i, urlHead (cs.drop i) = none) :
    ∀ i, urlHead ((replRun emailHead emailLit cs).drop i) = none := by
  refine replRun_pres emailHead emailLit (fun l => urlHead l = none)
    (fun _ => True) (fun _ _ _ => trivial) (fun _ _ _ => trivial)
    ?_ ?_ cs hin
  · intro j out2 hq _
    exact urlHead_litdrop emailLit (by decide) j out2 (by simpa using hq 0)
  · intro c P d rest _ hd _ hin0 _
    obtain ⟨n, hn⟩ := Option.ne_none_iff_exists'.mp hd
    exact urlJunction (c :: P) d rest emailLit (by simpa using hin0 0)
      (emailHead_nws d n hn) '[' (emailLit.drop 1) rfl (by decide)

theorem urlFree_bearer_pres (cs : List Char)
    (hin : ∀ i, urlHead (cs.drop i) = none) :
    ∀ i, urlHead ((replRun bearerHead bearerLit cs).drop i) = none := by
  refine replRun_pres bearerHead bearerLit (fun l => urlHead l = none)
    (fun _ => True) (fun _ _ _ => trivial) (fun _ _ _ => trivial)
    ?_ ?_ cs hin
  · intro j out2 hq _
    exact urlHead_litdrop bearerLit (by decide) j out2 (by simpa using hq 0)
  · intro c P d rest _ hd _ hin0 _
    obtain ⟨n, hn⟩ := Option.ne_none_iff_exists'.mp hd
    exact urlJunction (c :: P) d rest bearerLit (by simpa using hin0 0)
      (bearerHead_nws d n hn) 'B' (bearerLit.drop 1) rfl (by decide)

theorem urlFree_api_pres (cs : List Char)
    (hin : ∀ i, urlHead (cs.drop i) = none) :
    ∀ i, urlHead ((replRun apiHead apiLit cs).drop i) = none := by
  refine replRun_pres apiHead apiLit (fun l => urlHead l = none)
    (fun _ => True) (fun _ _ _ => trivial) (fun _ _ _ => trivial)
    ?_ ?_ cs hin
  · intro j out2 hq _
    exact urlHead_litdrop apiLit (by decide) j out2 (by simpa using hq 0)
  · intro c P d rest _ hd _ hin0 _
    obtain ⟨n, hn⟩ := Option.ne_none_iff_exists'.mp hd
    obtain ⟨hc, htl, hceq, hnw⟩ := apiHead_nws2 d n hn
    exact urlJunction (c :: P) d rest apiLit (by simpa using hin0 0)
      ⟨hc, htl, hceq, hnw⟩ 'a' (apiLit.drop 1) rfl (by decide)

theorem emailPass_sound (cs : List Char) :
    ∀ i, emailHead ((replRun emailHead emailLit cs).drop i) = none := by
  refine replRun_sound emailHead emailLit (fun l => emailHead l = none)
    (fun _ => True) rfl emailHead_pos (fun _ _ _ => trivial)
    (fun _ _ _ => trivial) (fun _ h => h) ?_ ?_ cs
  · intro j out2 hq _
    by_cases hj : j < 16
    · exact emailHead_blocked _ out2
        ((by decide : ∀ j, j < 16 → emailBlock (emailLit.drop j) = true) j hj)
    · rw [List.drop_eq_nil_of_le (by
        rw [show emailLit.length = 16 from by decide]; omega),
        List.nil_append]
      simpa using hq 0
  · intro c P d rest hm _ _ _
    exact emailJunction (c :: P) d rest emailLit hm (by decide) (by decide)
      (by decide) (Or.inl (by decide))

theorem emailFree_bearer_pres (cs : List Char)
    (hin : ∀ i, emailHead (cs.drop i) = none) :
    ∀ i, emailHead ((replRun bearerHead bearerLit cs).drop i) = none := by
  refine replRun_pres bearerHead bearerLit (fun l => emailHead l = none)
    (fun _ => True) (fun _ _ _ => trivial) (fun _ _ _ => trivial)
    ?_ ?_ cs hin
  · intro j out2 hq _
    by_cases hj : j < 23
    · exact emailHead_blocked _ out2
        ((by decide : ∀ j, j < 23 → emailBlock (bearerLit.drop j) = true)
          j hj)
    · rw [List.drop_eq_nil_of_le (by
        rw [show bearerLit.length = 23 from by decide]; omega),
        List.nil_append]
      simpa using hq 0
  · intro c P d rest _ hd _ hin0 _
    obtain ⟨n, hn⟩ := Option.ne_none_iff_exists'.mp hd
    obtain ⟨hls, -⟩ := bearerHead_some_fwd d n hn
    obtain ⟨dtl, rfl⟩ := (litStarts_iff _ _).mp hls
    refine emailJunction (c :: P) _ rest bearerLit (by simpa using hin0 0)
      (by decide) (by decide) (by decide) (Or.inr ?_)
    exact two_alpha_dom 'B' 'e' _ (by decide) (by decide)

theorem emailFree_api_pres (cs : List Char)
    (hin : ∀ i, emailHead (cs.drop i) = none) :
    ∀ i, emailHead ((replRun apiHead apiLit cs).drop i) = none := by
  refine replRun_pres apiHead apiLit (fun l => emailHead l = none)
    (fun _ => True) (fun _ _ _ => trivial) (fun _ _ _ => trivial)
    ?_ ?_ cs hin
  · intro j out2 hq _
    by_cases hj : j < 21
    · exact emailHead_blocked _ out2
        ((by decide : ∀ j, j < 21 → emailBlock (apiLit.drop j) = true) j hj)
    · rw [List.drop_eq_nil_of_le (by
        rw [show apiLit.length = 21 from by decide]; omega),
        List.nil_append]
      simpa using hq 0
  · intro c P d rest _ hd _ hin0 _
    obtain ⟨n, hn⟩ := Option.ne_none_iff_exists'.mp hd
    obtain ⟨restd, pld, pd, hpred, -, -⟩ := apiHead_some_fwd d n hn
    obtain ⟨hcid, -, -⟩ := apiPre_fwd _ _ _ hpred
    obtain ⟨c1, dtl, hdeq, hc1, hci2⟩ := ciStarts_cons_fwd _ _ _ hcid
    obtain ⟨c2, dtl2, hdeq2, hc2, -⟩ := ciStarts_cons_fwd _ _ _ hci2
    refine emailJunction (c :: P) d rest apiLit (by simpa using hin0 0)
      (by decide) (by decide) (by decide) (Or.inr ?_)
    rw [hdeq, hdeq2]
    refine two_alpha_dom c1 c2 _ ?_ ?_
    · rcases toLower_a_mem c1 hc1 with rfl | rfl <;> decide
    · rcases toLower_p_mem c2 hc2 with rfl | rfl <;> decide

theorem bearerPass_sound (cs : List Char) :
    ∀ i tok, bearerTokAt ((replRun bearerHead bearerLit cs).drop i)
      = some tok → tok = bearerTokLit := by
  refine replRun_sound bearerHead bearerLit
    (fun l => ∀ tok, bearerTokAt l = some tok → tok = bearerTokLit)
    headWSE (fun tok h => Option.noConfusion h) bearerHead_pos
    bearerHead_post (replAux_headWSE bearerHead bearerLit bearerHead_nws)
    bearer_hself ?_ ?_ cs
  · intro j out2 hq hr
    exact bearer_hlit j out2 (by simpa using hq 0) hr
  · intro c P d rest hm hd _ _
    exact bearerJunction (c :: P) d rest (by simp) hm hd

theorem bearerRed_api_pres (cs : List Char)
    (hin : ∀ i tok, bearerTokAt (cs.drop i) = some tok
      → tok = bearerTokLit) :
    ∀ i tok, bearerTokAt ((replRun apiHead apiLit cs).drop i) = some tok
      → tok = bearerTokLit := by
  refine replRun_pres apiHead apiLit
    (fun l => ∀ tok, bearerTokAt l = some tok → tok = bearerTokLit)
    (fun _ => True) (fun _ _ _ => trivial) (fun _ _ _ => trivial)
    ?_ ?_ cs hin
  · intro j out2 hq _
    exact bearerApi_hlit j out2 (by simpa using hq 0)
  · intro c P d rest _ hd _ hin0 _
    exact bearerApiJunction (c :: P) d rest (by simp) hd
      (by simpa using hin0 0)

theorem apiPass_sound (cs : List Char) :
    ∀ i v, apiValAt ((replRun apiHead apiLit cs).drop i) = some v
      → v = apiValLit := by
  refine replRun_sound apiHead apiLit
    (fun l => ∀ v, apiValAt l = some v → v = apiValLit)
    headWSE (fun v h => Option.noConfusion h) apiHead_pos
    apiHead_post (replAux_headWSE apiHead apiLit apiHead_nws2)
    api_hself ?_ ?_ cs
  · intro j out2 hq hr
    exact api_hlit j out2 (by simpa using hq 0) hr
  · intro c P d rest hm hd _ _
    exact apiJunction (c :: P) d rest (by simp) hm hd

theorem redact_props (s : String) :
    urlFree (redactMessage s).data ∧ emailFree (redactMessage s).data
    ∧ bearerRedacted (redactMessage s).data
    ∧ apiRedacted (redactMessage s).data := by
  have hdata : (redactMessage s).data
      = replRun apiHead apiLit (replRun bearerHead bearerLit
          (replRun emailHead emailLit (replRun urlHead urlLit s.data)))
      := rfl
  refine ⟨?_, ?_, ?_, ?_⟩
  · intro n
    rw [hdata]
    exact urlFree_api_pres _ (urlFree_bearer_pres _ (urlFree_email_pres _
      (urlPass_sound s.data))) n
  · intro n
    rw [hdata]
    exact emailFree_api_pres _ (emailFree_bearer_pres _
      (emailPass_sound _)) n
  · intro n tok h
    rw [hdata] at h
    exact bearerRed_api_pres _ (bearerPass_sound _) n tok h
  · intro n v h
    rw [hdata] at h
    exact apiPass_sound _ n v h

/-- C5: redaction completeness of sanitizeErrorMessage.  Whenever the
extracted message is a string (the ok case of the embedding), the
returned string contains no substring matching the URL pattern, no
substring matching the email pattern, every Bearer-token match inside it
carries the redacted token, and every api-token match inside it carries
the redacted value. -/
theorem C5_redaction_completeness (e : JsVal) (out : String)
    (h : sanitizeErrorMessage e = Except.ok out) :
    urlFree out.data ∧ emailFree out.data ∧ bearerRedacted out.data
    ∧ apiRedacted out.data := by
  simp only [sanitizeErrorMessage] at h
  split at h
  · rename_i s heq
    injection h with h
    rw [← h]
    exact redact_props s
  · cases h

theorem C5_witness :
    urlFree ("see [URL_REDACTED] [EMAIL_REDACTED] Bearer [TOKEN_REDACTED] api_token: [REDACTED]" : String).data
    ∧ emailFree ("see [URL_REDACTED] [EMAIL_REDACTED] Bearer [TOKEN_REDACTED] api_token: [REDACTED]" : String).data
    ∧ bearerRedacted ("see [URL_REDACTED] [EMAIL_REDACTED] Bearer [TOKEN_REDACTED] api_token: [REDACTED]" : String).data
    ∧ apiRedacted ("see [URL_REDACTED] [EMAIL_REDACTED] Bearer [TOKEN_REDACTED] api_token: [REDACTED]" : String).data :=
  C5_redaction_completeness
    (.objCons "message"
      (.str "see https://a.b x@y.io Bearer abc api_token: k") .objNil)
    "see [URL_REDACTED] [EMAIL_REDACTED] Bearer [TOKEN_REDACTED] api_token: [REDACTED]"
    rfl

end JiraMCP
